import Mathlib

/-!
Verification of the nxsearch storage/index core against its specification.

The definitions below are shallow embeddings of the C sources
(`src/algo/levdist.c`, `src/algo/bktree.c`, `src/algo/heap.c`,
`src/algo/ranking.c`, `src/index/idxterm.c`, `src/index/terms.c`,
`src/index/dtmap.c`, `src/core/nxs.c`, `src/query/search.c`).
Machine integers are modelled as `Nat` with explicit reductions modulo
`2^w` at the points where the C code stores into a fixed-width cell and
the width can matter; fallible operations return `Option`/`Except`.
-/

namespace Nxs

/-! ## Levenshtein distance (src/algo/levdist.c)

`levRec` is the simple recursive algorithm quoted in the levdist.c header
comment (removal / insertion / substitution on the first characters).
`levdist` models the actual implementation: the optimized Wagner-Fischer
loop that keeps a single row (of `uint16_t` cells, hence the `% 65536` at
each store) plus the two scalars `prev_diag` / `prev_above`, after
swapping the arguments so that the first string is the longer one. -/

/-- Substitution cost: `!(s1c == s2c)` in the C code. -/
def levCost (a b : Char) : Nat := if a = b then 0 else 1

/-- The reference recursive Levenshtein definition, transcribed from the
levdist.c header comment (`lev_dist` in Python there). -/
def levRec : List Char → List Char → Nat
  | [], b => b.length
  | a :: as, [] => (a :: as).length
  | a :: as, b :: bs =>
      min (min (levRec as (b :: bs) + 1) (levRec (a :: as) bs + 1))
        (levRec as bs + levCost a b)
termination_by a b => a.length + b.length
decreasing_by all_goals simp_arith

/-- `min_u3` from levdist.c. -/
def min_u3 (x y z : Nat) : Nat := min (min x y) z

/-- The inner (`j`) loop of `levdist`: walks the remaining characters of
`s2` together with the tail of the previous row.  `left` is the freshly
stored `row[j-1]`, `diag` is `prev_diag`, the head of `oldTail` is the
value `row[j]` still holding the previous row (`prev_above`).  Stores into
the `uint16_t` row are reduced `% 65536`. -/
def levInner (s1c : Char) : List Char → List Nat → Nat → Nat → List Nat
  | [], _, _, _ => []
  | _ :: _, [], _, _ => []
  | s2c :: s2rest, above :: oldrest, left, diag =>
      let v := min_u3 (left + 1) (above + 1) (diag + levCost s1c s2c) % 65536
      v :: levInner s1c s2rest oldrest v above

/-- One iteration of the outer (`i`) loop of `levdist`: store
`row[0] = i + 1` and run the inner loop with `prev_above = i`. -/
def levRowStep (s2 : List Char) (row : List Nat) (i : Nat) (s1c : Char) : List Nat :=
  match row with
  | [] => []
  | _ :: oldrest => ((i + 1) % 65536) :: levInner s1c s2 oldrest ((i + 1) % 65536) i

/-- The body of `levdist()` after the argument swap: the `n == 0` /
`m == 0` early returns, the initial row `row[j] = j`, the nested loops and
the final `row[m]`. -/
def levdistCore (s1 s2 : List Char) : Nat :=
  if s1.length = 0 then s2.length
  else if s2.length = 0 then s1.length
  else
    let init := (List.range (s2.length + 1)).map (· % 65536)
    let finalRow := s1.enum.foldl (fun row p => levRowStep s2 row p.1 p.2) init
    finalRow.getD s2.length 0

/-- `levdist(ctx, s1, n, s2, m)`: if `n < m` the implementation calls
itself once with the arguments swapped (so that the row is the shorter
string); that single tail call is modelled directly. -/
def levdist (s1 s2 : List Char) : Nat :=
  if s1.length < s2.length then levdistCore s2 s1 else levdistCore s1 s2


/-- Loop-invariant helper: the row values `lev(p, q ++ d₁)`, `lev(p, q ++ d₁d₂)`, …
for the suffix of `s2` that the inner loop still has to walk. -/
def rowTail (p : List Char) : List Char → List Char → List Nat
  | _, [] => []
  | q, d :: rest => levRec p (q ++ [d]) :: rowTail p (q ++ [d]) rest


/-- The full row maintained by the outer loop for the `s1`-prefix `p`. -/
def rowFull (p s2 : List Char) : List Nat := levRec p [] :: rowTail p [] s2



/-! ## BK-tree (src/algo/bktree.c)

Nodes store an object, a 64-bit bitmap of populated child slots and the
child array packed by popcount (Bagwell compression).  The distance
function is `levdist` (via `idxterm_levdist`); the objects are the term
values themselves.  The C descent/worklist loops are modelled with an
explicit fuel argument that is always instantiated above the tree size,
so it never runs out on the modelled trees.  `BKT_DIST_LIMIT` is
`CHAR_BIT * sizeof(uint64_t) = 64` as in bktree.h; masks and shifted
bits are reduced `% 2^64` exactly where the C works in `uint64_t`
(all slots exercised here are < 64, where the C behaviour is defined).
-/

/-- `popcount64`: number of set bits among bits 0..63. -/

def popcount64 (x : Nat) : Nat := ((List.range 64).filter (fun i => x.testBit i)).length

inductive BKNode where
  | node (obj : List Char) (bitmap : Nat) (map : List BKNode)

def BKNode.obj : BKNode → List Char | .node o _ _ => o
def BKNode.bitmap : BKNode → Nat | .node _ b _ => b
def BKNode.map : BKNode → List BKNode | .node _ _ m => m

mutual

def BKNode.size : BKNode → Nat
  | .node _ _ m => 1 + bknodeListSize m

def bknodeListSize : List BKNode → Nat
  | [] => 0
  | c :: cs => BKNode.size c + bknodeListSize cs

end

def BKT_DIST_LIMIT : Nat := 64

def bknodeGet (n : BKNode) (i : Nat) : Option BKNode :=
  let bit := (2 ^ i) % 2 ^ 64
  if n.bitmap &&& bit = 0 then none
  else n.map.get? (popcount64 (n.bitmap &&& (bit - 1)))

def bknodeSlotIdx (bitmap : Nat) (i : Nat) : Nat := popcount64 (bitmap &&& (2 ^ i - 1))

def bknodeSet (cur : BKNode) (i : Nat) (val : BKNode) : BKNode :=
  .node cur.obj (cur.bitmap ||| (2 ^ i % 2 ^ 64))
    (cur.map.insertIdx (bknodeSlotIdx cur.bitmap i) val)

def bknodeReplaceChild (n : BKNode) (i : Nat) (c : BKNode) : BKNode :=
  .node n.obj n.bitmap (n.map.set (bknodeSlotIdx n.bitmap i) c)

def bktreeInsertGo (obj : List Char) : Nat → BKNode → Option BKNode
  | 0, _ => none
  | fuel + 1, nd =>
      let d := levdist obj nd.obj
      if d = 0 then none
      else
        let d' := min d BKT_DIST_LIMIT
        match bknodeGet nd d' with
        | some child =>
            match bktreeInsertGo obj fuel child with
            | some newChild => some (bknodeReplaceChild nd d' newChild)
            | none => none
        | none => some (bknodeSet nd d' (.node obj 0 []))

structure BKTree where
  root : Option BKNode

def bktreeInsert (t : BKTree) (obj : List Char) : Option BKTree :=
  match t.root with
  | none => some ⟨some (.node obj 0 [])⟩
  | some r =>
      match bktreeInsertGo obj (r.size + 1) r with
      | some r' => some ⟨some r'⟩
      | none => none

def bknodeGetRange (n : BKNode) (start stop : Nat) : Nat :=
  let lo_mask := ((2 ^ 64 - 1) <<< start) % 2 ^ 64
  let hi_mask := (2 ^ 64 - 1) >>> (64 - stop)
  n.bitmap &&& (lo_mask &&& hi_mask)

def bknodeRangeChildren (n : BKNode) (bits : Nat) : List BKNode :=
  ((List.range 64).filter (fun i => bits.testBit i)).filterMap (fun i => bknodeGet n i)

def bktreeSearchGo (tolerance : Nat) (obj : List Char) :
    Nat → List BKNode → List (List Char) → List (List Char)
  | _, [], results => results
  | 0, _, results => results
  | fuel + 1, nd :: rest, results =>
      let d := levdist obj nd.obj
      let results' := if d ≤ tolerance then results ++ [nd.obj] else results
      let min_d := d - tolerance
      let max_d := min (d + tolerance) BKT_DIST_LIMIT
      let children := bknodeRangeChildren nd (bknodeGetRange nd min_d max_d)
      bktreeSearchGo tolerance obj fuel (rest ++ children) results'

def bktreeSize (t : BKTree) : Nat :=
  match t.root with
  | none => 0
  | some r => r.size

def bktreeSearch (t : BKTree) (tolerance : Nat) (obj : List Char) : List (List Char) :=
  match t.root with
  | none => []
  | some r => bktreeSearchGo tolerance obj (r.size + 1) [r] []

/-! ## Fuzzy-candidate selection (src/index/idxterm.c, `idxterm_fuzzysearch`)

After `bktree_search` fills the `results` deque, the selection loop pops
candidates from the back and executes
`if (idxterm_get_total(idx, iterm) > term_total) { term = iterm; }`
where `term_total` is initialised to `0` and never assigned again. -/

/-- The selection loop of `idxterm_fuzzysearch`.  `results` holds the
candidates in deque push order; `deque_pop_back` yields them in reverse
push order; `total` models `idxterm_get_total`. -/
def fuzzySelect {α : Type} (total : α → Nat) (results : List α) : Option α :=
  results.reverse.foldl
    (fun term iterm => if total iterm > 0 then some iterm else term) none

/-! ## BM25 (src/algo/ranking.c, `bm25`)

`term_freq` is the C `int` returned by `idxdoc_get_termcount`; `doc_count`
is the `uint32_t` header counter, `token_count` the `uint64_t` header
counter, `doc_freq` the bitmap cardinality and `dl` the document length.
The average document length is computed by the C expression
`idx_get_token_count(idx) / idx_get_doc_count(idx)`: an unsigned
*integer* division, converted to `double` only after the quotient is
taken.  The two explicit NaN returns are modelled as `none`; the float
constants `k = 1.2f`, `b = 0.75f` and IEEE rounding are idealised as
exact reals. -/

/-- Shallow embedding of `bm25()` from src/algo/ranking.c. -/
noncomputable def bm25 (term_freq : ℤ) (doc_count token_count doc_freq dl : ℕ) :
    Option ℝ :=
  let adl : ℕ := token_count / doc_count
  if term_freq ≤ 0 ∨ adl = 0 then none
  else
    let tf : ℝ := Real.log ((term_freq : ℝ) + 1)
    let tf_bm25 : ℝ := tf / (tf + 1.2 * (1 - 0.75 + 0.75 * (dl : ℝ) / (adl : ℝ)))
    let idf_bm25 : ℝ :=
      Real.log (((doc_count : ℝ) - (doc_freq : ℝ) + 0.5) / ((doc_freq : ℝ) + 0.5) + 1)
    some (tf_bm25 * idf_bm25)

/-- The BM25 formula exactly as the claim reads it, with
`adl = token_count / doc_count` taken as a *real-valued* average and
NaN exactly when `tf ≤ 0` or `adl = 0`. -/
noncomputable def bm25ClaimReal (term_freq : ℤ) (doc_count token_count doc_freq dl : ℕ) :
    Option ℝ :=
  let adl : ℝ := (token_count : ℝ) / (doc_count : ℝ)
  if term_freq ≤ 0 ∨ adl = 0 then none
  else
    let tf : ℝ := Real.log ((term_freq : ℝ) + 1)
    some (tf / (tf + 1.2 * (1 - 0.75 + 0.75 * (dl : ℝ) / adl)) *
      Real.log (((doc_count : ℝ) - (doc_freq : ℝ) + 0.5) / ((doc_freq : ℝ) + 0.5) + 1))

/-- The BM25 formula of the claim amended so that `adl` is the integer
quotient `⌊token_count / doc_count⌋`, which is what the C division
computes. -/
noncomputable def bm25ClaimFloor (term_freq : ℤ) (doc_count token_count doc_freq dl : ℕ) :
    Option ℝ :=
  if term_freq ≤ 0 ∨ token_count / doc_count = 0 then none
  else
    let tf : ℝ := Real.log ((term_freq : ℝ) + 1)
    some (tf / (tf + 1.2 * (1 - 0.75 + 0.75 * (dl : ℝ) / ((token_count / doc_count : ℕ) : ℝ))) *
      Real.log (((doc_count : ℝ) - (doc_freq : ℝ) + 0.5) / ((doc_freq : ℝ) + 0.5) + 1))

/-! ## Document-id validation on the add path (src/core/nxs.c,
`nxs_index_add`, and src/index/idxterm.c, `idxterm_add_doc`) -/

/-- The nxsearch error codes (src/core/nxs.h). -/
inductive NxsErr
  | FATAL
  | SYSTEM
  | INVALID
  | EXISTS
  | MISSING
  | LIMIT
deriving DecidableEq, Repr

/-- The caller-input checks at the head of `nxs_index_add`:
`doc_id == 0` fails with `EINVAL`, an already-indexed id fails with
`EEXIST`, and no other check is made on the id before tokenization
proceeds (`none` = the id checks pass). -/
def nxsIndexAddValidate (docId : Nat) (indexed : Nat → Bool) : Option NxsErr :=
  if docId = 0 then some NxsErr.INVALID
  else if indexed docId then some NxsErr.EXISTS
  else none

/-- `idxterm_add_doc` (idxterm.c:315-321): unconditionally executes
`roaring_bitmap_add(term->doc_bitmap, doc_id)` and returns 0. -/
def idxtermAddDoc (bm : Finset Nat) (docId : Nat) : Int × Finset Nat :=
  (0, insert docId bm)

/-! ## Index state model: terms and dtmap files (src/index/terms.c,
src/index/dtmap.c, src/index/idxterm.c) -/



/-- Per-term state: the 64-bit global occurrence counter (the cell in the
memory-mapped terms file that `term->offset` points at) and the in-memory
document bitmap (`term->doc_bitmap`). -/
structure TermSt where
  total : Nat
  bitmap : Finset Nat
deriving DecidableEq

/-- One dtmap doc block (storage.h): `doc_id` (u64), `doc_len` (u32,
tokens seen with repetitions), and `n` tuples `(term_id, count)`. -/
structure DocBlock where
  docId : Nat
  docLen : Nat
  tuples : List (Nat × Nat)
deriving DecidableEq

/-- `IDXDT_META_LEN(n) = 8 + 4 + 4 + n * (4 + 4)`. -/
def dtBlockLen (b : DocBlock) : Nat := 8 + 4 + 4 + b.tuples.length * (4 + 4)

/-- `IDXTERMS_BLK_LEN(len)`: meta (2+1+8) plus value plus padding that
8-aligns the counter, i.e. `8 + roundup2(2 + 1 + len, 8)`. -/
def termBlockLen (len : Nat) : Nat := 8 + ((2 + 1 + len + 7) / 8) * 8

/-- The state of one open index: the two memory-mapped files (modelled at
block granularity, with the header fields kept explicitly) and the
in-memory mirrors (term directory, document directory, mirror
positions). -/
structure IndexSt where
  /-- terms file header `data_len` (u32). -/
  termsDataLen : Nat
  /-- term values in file-append order; term ids are positional
  (id = position + 1), which is how ids are (re)assigned on replay. -/
  termsFile : List (List Char)
  /-- per term id: the mapped counter cell and the in-memory bitmap. -/
  terms : Nat → TermSt
  /-- in-memory term directory (`term_map`/`td_map`/`term_list`): the
  term ids currently present. -/
  termDir : List Nat
  /-- `idx->terms_consumed` (bytes). -/
  termsConsumed : Nat
  /-- `idx->terms_last_id`. -/
  termsLastId : Nat
  /-- dtmap file header `data_len` (u64). -/
  dtDataLen : Nat
  /-- dtmap doc blocks. -/
  dtFile : List DocBlock
  /-- in-memory document directory (`dt_map`): `(doc_id, offset)`. -/
  docDir : List (Nat × Nat)
  /-- `idx->dt_consumed` (bytes). -/
  dtConsumed : Nat
  /-- dtmap header `doc_count` (u32). -/
  docCount : Nat
  /-- dtmap header `token_count` (u64). -/
  tokenCount : Nat

/-- `idxterm_incr_total`: a CAS add on the mapped 64-bit counter (wraps
at 2^64 like the `uint64_t` addition). -/
def idxtermIncrTotal (s : IndexSt) (tid count : Nat) : IndexSt :=
  { s with terms := fun t =>
      if t = tid then { s.terms t with total := ((s.terms t).total + count) % 2 ^ 64 }
      else s.terms t }

/-- `idxterm_decr_total`: saturating CAS subtract — if the current value
is below `count`, the counter is left unchanged. -/
def idxtermDecrTotal (s : IndexSt) (tid count : Nat) : IndexSt :=
  { s with terms := fun t =>
      if t = tid then
        (if (s.terms t).total < count then s.terms t
         else { s.terms t with total := (s.terms t).total - count })
      else s.terms t }

/-- `idxterm_add_doc`: `roaring_bitmap_add`. -/
def idxtermAddDocSt (s : IndexSt) (tid docId : Nat) : IndexSt :=
  { s with terms := fun t =>
      if t = tid then { s.terms t with bitmap := insert docId (s.terms t).bitmap }
      else s.terms t }

/-- `idxterm_del_doc`: `roaring_bitmap_remove`. -/
def idxtermDelDocSt (s : IndexSt) (tid docId : Nat) : IndexSt :=
  { s with terms := fun t =>
      if t = tid then { s.terms t with bitmap := (s.terms t).bitmap.erase docId }
      else s.terms t }

/-- `dtmap_decr_totals`: walk the token list from the head up to (but
excluding) `target` (`none` = the whole list), decrementing each token's
term counter by the token count. -/
def dtmapDecrTotals (s : IndexSt) (tokens : List (Nat × Nat)) (target : Option Nat) : IndexSt :=
  (tokens.take (target.getD tokens.length)).foldl
    (fun st tc => idxtermDecrTotal st tc.1 tc.2) s

/-- The side effects of `dtmap_build_block` on the index state: for every
token, `idxterm_add_doc(idxterm, doc_id)` followed by
`idxterm_incr_total(idx, idxterm, token->count)`.  (`idxterm_add_doc`
never fails in this source, so the mid-loop rewind path is dead.) -/
def dtmapBuildBlockSt (s : IndexSt) (docId : Nat) (tokens : List (Nat × Nat)) : IndexSt :=
  tokens.foldl (fun st tc => idxtermIncrTotal (idxtermAddDocSt st tc.1 docId) tc.1 tc.2) s

/-- The doc-term block built by `dtmap_build_block`: doc id, `tokens->seen`
(total token occurrences) and the `(term_id, count)` tuples sorted
ascending by term id (`qsort` with `dtmap_termblock_cmp`). -/
def dtmapBlockOf (docId : Nat) (tokens : List (Nat × Nat)) : DocBlock :=
  { docId := docId
    docLen := (tokens.map Prod.snd).sum
    tuples := tokens.mergeSort (fun a b => a.1 ≤ b.1) }



/-- Walk to the block boundary at data-offset `n`: the blocks from that
position on, or `none` when `n` does not fall on a block boundary. -/
def dropDtBytes : List DocBlock → Nat → Option (List DocBlock)
  | bs, 0 => some bs
  | [], _ + 1 => none
  | b :: bs, n + 1 =>
      if dtBlockLen b ≤ n + 1 then dropDtBytes bs (n + 1 - dtBlockLen b) else none

/-- Same for the terms file. -/
def dropTermBytes : List (List Char) → Nat → Option (List (List Char))
  | vs, 0 => some vs
  | [], _ + 1 => none
  | v :: vs, n + 1 =>
      if termBlockLen v.length ≤ n + 1 then
        dropTermBytes vs (n + 1 - termBlockLen v.length)
      else none

/-- The parse loop of `idx_terms_sync`: create a term (next sequential
id, fresh empty bitmap), insert it into the directory, and advance the
mirror position, until the observed `data_len` is reached. -/
def idxTermsSyncGo : IndexSt → List (List Char) → Nat → IndexSt × Option NxsErr
  | s, _, 0 => (s, none)
  | s, [], _ + 1 => (s, some NxsErr.FATAL)
  | s, v :: vs, n + 1 =>
      if termBlockLen v.length ≤ n + 1 then
        let id := s.termsLastId + 1
        let s' := { s with
          termsLastId := id
          termDir := s.termDir ++ [id]
          terms := fun t => if t = id then { (s.terms t) with bitmap := ∅ } else s.terms t
          termsConsumed := s.termsConsumed + termBlockLen v.length }
        idxTermsSyncGo s' vs (n + 1 - termBlockLen v.length)
      else (s, some NxsErr.FATAL)

/-- `idx_terms_sync` (terms.c:320-414). -/
def idxTermsSync (s : IndexSt) : IndexSt × Option NxsErr :=
  if s.termsDataLen = s.termsConsumed then (s, none)
  else match dropTermBytes s.termsFile s.termsConsumed with
    | none => (s, some NxsErr.FATAL)
    | some vs => idxTermsSyncGo s vs (s.termsDataLen - s.termsConsumed)

/-- The per-block loop of `idx_dtmap_sync` (dtmap.c:484-534): skip
tombstones and deletion markers (destroying the in-memory doc on a
marker), replay live blocks into the document directory and the term
bitmaps, and stop (without error, if `DTMAP_PARTIAL_SYNC`) at the first
block that references a term id not in the term directory.  `dtmap_build_tdmap`
reverts the bitmap additions of a failed block before returning, so a
block that stops the walk leaves no effects; the walk advances
`dt_consumed` only past fully consumed blocks. -/
def idxDtmapSyncGo (psync : Bool) : IndexSt → List DocBlock → Nat → IndexSt × Option NxsErr
  | s, _, 0 => (s, none)
  | s, [], _ + 1 => (s, some NxsErr.FATAL)
  | s, b :: bs, n + 1 =>
      if dtBlockLen b ≤ n + 1 then
        if b.docId = 0 then
          idxDtmapSyncGo psync
            { s with dtConsumed := s.dtConsumed + dtBlockLen b } bs
            (n + 1 - dtBlockLen b)
        else if b.docLen = 0 then
          idxDtmapSyncGo psync
            { s with
              docDir := s.docDir.filter (fun p => ¬ p.1 = b.docId)
              dtConsumed := s.dtConsumed + dtBlockLen b } bs
            (n + 1 - dtBlockLen b)
        else if (b.tuples.map Prod.fst).all (fun tid => s.termDir.contains tid) then
          idxDtmapSyncGo psync
            { b.tuples.foldl (fun st tc => idxtermAddDocSt st tc.1 b.docId)
                { s with docDir := s.docDir ++ [(b.docId, 32 + s.dtConsumed)] } with
              dtConsumed := (b.tuples.foldl (fun st tc => idxtermAddDocSt st tc.1 b.docId)
                { s with docDir := s.docDir ++ [(b.docId, 32 + s.dtConsumed)] }).dtConsumed
                  + dtBlockLen b } bs
            (n + 1 - dtBlockLen b)
        else
          (s, if psync then none else some NxsErr.FATAL)
      else (s, some NxsErr.FATAL)

/-- `idx_dtmap_sync` (dtmap.c:437-541). -/
def idxDtmapSync (s : IndexSt) (psync : Bool) : IndexSt × Option NxsErr :=
  if s.dtDataLen = s.dtConsumed then (s, none)
  else match dropDtBytes s.dtFile s.dtConsumed with
    | none => (s, some NxsErr.FATAL)
    | some bs => idxDtmapSyncGo psync s bs (s.dtDataLen - s.dtConsumed)

/-- `idx_dtmap_add` (dtmap.c:246-355).  The build of the doc-term block
mutates the bitmaps and counters first; a failure afterwards runs
`dtmap_decr_totals(idx, tokens, NULL)` (counters only).  When the
pre-sync fails the C frees the block and returns without any rollback
at all. -/
def idxDtmapAdd (s : IndexSt) (docId : Nat) (tokens : List (Nat × Nat)) :
    IndexSt × Option NxsErr :=
  let s1 := dtmapBuildBlockSt s docId tokens
  let block := dtmapBlockOf docId tokens
  match idxDtmapSync s1 true with
  | (s2, some e) => (s2, some e)
  | (s2, none) =>
      match (if s2.dtConsumed < s2.dtDataLen then
               match idxTermsSync s2 with
               | (s3, some e) => (s3, some e)
               | (s3, none) => idxDtmapSync s3 false
             else (s2, none)) with
      | (s4, some e) => (dtmapDecrTotals s4 tokens none, some e)
      | (s4, none) =>
          if (s4.docDir.map Prod.fst).contains docId then
            (dtmapDecrTotals s4 tokens none, some NxsErr.EXISTS)
          else
            let s5 := { s4 with
              docDir := s4.docDir ++ [(docId, 32 + s4.dtDataLen)]
              dtFile := s4.dtFile ++ [block]
              tokenCount := (s4.tokenCount + block.docLen) % 2 ^ 64
              docCount := (s4.docCount + 1) % 2 ^ 32
              dtDataLen := s4.dtDataLen + dtBlockLen block
              dtConsumed := s4.dtDataLen + dtBlockLen block }
            (s5, none)

/-- Find the index of the block whose data offset (relative to the file
start, header included) is `target`; `cur` starts at the header size. -/
def dtFindBlockIdx : List DocBlock → Nat → Nat → Option Nat
  | [], _, _ => none
  | b :: bs, target, cur =>
      if cur = target then some 0
      else match dtFindBlockIdx bs target (cur + dtBlockLen b) with
        | some i => some (i + 1)
        | none => none

/-- The term loop of `idx_dtmap_remove` (dtmap.c:610-624): for each
tuple of the live block, look the term up by id (failing hard if it is
missing), unlink the doc from its bitmap and decrement its counter. -/
def removeTupleLoop (docId : Nat) : IndexSt → List (Nat × Nat) → IndexSt × Bool
  | s, [] => (s, true)
  | s, tc :: rest =>
      if s.termDir.contains tc.1 then
        removeTupleLoop docId
          (idxtermDecrTotal (idxtermDelDocSt s tc.1 docId) tc.1 tc.2) rest
      else (s, false)

/-- `idx_dtmap_remove` (dtmap.c:543-652). -/
def idxDtmapRemove (s : IndexSt) (docId : Nat) : IndexSt × Option NxsErr :=
  match idxTermsSync s with
  | (s1, some e) => (s1, some e)
  | (s1, none) =>
      match idxDtmapSync s1 false with
      | (s2, some e) => (s2, some e)
      | (s2, none) =>
          match s2.docDir.find? (fun p => p.1 = docId) with
          | none => (s2, some NxsErr.MISSING)
          | some doc =>
              match dtFindBlockIdx s2.dtFile doc.2 32 with
              | none => (s2, some NxsErr.FATAL)
              | some i =>
                  match s2.dtFile.get? i with
                  | none => (s2, some NxsErr.FATAL)
                  | some b =>
                      let s3 := { s2 with dtFile := s2.dtFile.set i { b with docId := 0 } }
                      match removeTupleLoop docId s3 b.tuples with
                      | (s4, false) => (s4, some NxsErr.FATAL)
                      | (s4, true) =>
                          let marker : DocBlock := { docId := docId, docLen := 0, tuples := [] }
                          let s5 := { s4 with
                            dtFile := s4.dtFile ++ [marker]
                            docDir := s4.docDir.filter (fun p => ¬ p.1 = docId)
                            docCount := (s4.docCount + (2 ^ 32 - 1)) % 2 ^ 32
                            tokenCount := (s4.tokenCount + (2 ^ 64 - b.docLen % 2 ^ 64)) % 2 ^ 64
                            dtConsumed := s4.dtDataLen + (8 + 8)
                            dtDataLen := s4.dtDataLen + (8 + 8) }
                          (s5, none)


/-! ## Top-N min-heap (src/algo/heap.c) -/

/-- The min-heap property of the item array (heap.c:90-96): every child
node has a value greater than or equal to its parent's. -/
def heapInv (l : List Nat) : Prop :=
  ∀ j < l.length, 0 < j → l.getD ((j - 1) / 2) 0 ≤ l.getD j 0

instance heapInvDecidable (l : List Nat) : Decidable (heapInv l) :=
  inferInstanceAs (Decidable (∀ j < l.length, 0 < j → l.getD ((j - 1) / 2) 0 ≤ l.getD j 0))

/-- The "heapify-up" loop of `heap_add` (heap.c:99-114): `item` sits at
index `i`; while the parent is strictly greater, swap them and ascend. -/
def siftUp (item : Nat) (l : List Nat) (i : Nat) : List Nat :=
  if i = 0 then l
  else if l.getD ((i - 1) / 2) 0 ≤ item then l
  else siftUp item ((l.set ((i - 1) / 2) item).set i (l.getD ((i - 1) / 2) 0)) ((i - 1) / 2)
termination_by i
decreasing_by omega

/-- The "heapify-down" loop of `heap_remove_min` (heap.c:154-185).  At
node `i` the C code picks `smallest_idx` among `i`, its left child
`2i+1` and, when below `max`, its right child `2i+2`; it stops when
`smallest_idx == i` and otherwise swaps and descends.  The branches
below enumerate the outcomes of that selection in the C order: the
right child wins, else the left child wins, else stop. -/
def siftDown (l : List Nat) (i max : Nat) : List Nat :=
  if h1 : 2 * i + 1 < max then
    if 2 * i + 2 < max ∧
        l.getD (2 * i + 2) 0 <
          l.getD (if l.getD (2 * i + 1) 0 < l.getD i 0 then 2 * i + 1 else i) 0 then
      siftDown ((l.set i (l.getD (2 * i + 2) 0)).set (2 * i + 2) (l.getD i 0)) (2 * i + 2) max
    else if l.getD (2 * i + 1) 0 < l.getD i 0 then
      siftDown ((l.set i (l.getD (2 * i + 1) 0)).set (2 * i + 1) (l.getD i 0)) (2 * i + 1) max
    else l
  else l
termination_by max - i
decreasing_by
  · omega
  · omega

/-- `heap_remove_min` (heap.c:125-188): return the root; move the last
item to the root slot, shrink the array, and heapify-down. -/
def heapRemoveMin (l : List Nat) : Option Nat × List Nat :=
  match l with
  | [] => (none, [])
  | x :: rest =>
    if rest.length = 0 then (some x, [])
    else
      (some x, siftDown ((l.set 0 (l.getD rest.length 0)).take rest.length) 0 rest.length)

/-- `heap_add` (heap.c:58-117).  When the heap is at capacity: reject the
item if it is not strictly greater than the root, otherwise remove the
root first.  Then append the item and heapify-up.  (With `cap = 0` the C
code reads `items[0]` out of bounds; callers guarantee `cap > 0`.) -/
def heapAdd (cap : Nat) (l : List Nat) (item : Nat) : Bool × List Nat :=
  if l.length = cap then
    match l with
    | [] => (false, l)
    | root :: _ =>
      if item ≤ root then (false, l)
      else
        let l' := (heapRemoveMin l).2
        (true, siftUp item (l' ++ [item]) l'.length)
  else (true, siftUp item (l ++ [item]) l.length)

/-- Feeding a list of items through `heap_add`. -/
def heapAddAll (cap : Nat) : List Nat → List Nat → List Nat
  | l, [] => l
  | l, x :: xs => heapAddAll cap (heapAdd cap l x).2 xs

/-- The `heap_sort` loop (heap.c:209-217): repeatedly remove the minimum
and place it at the last in-use slot, so the array ends up in descending
order.  The C loop runs exactly `nitems` times. -/
def heapSortGo : Nat → List Nat → List Nat → List Nat
  | 0, _, acc => acc
  | fuel + 1, l, acc =>
    match heapRemoveMin l with
    | (none, _) => acc
    | (some m, l') => heapSortGo fuel l' (m :: acc)

/-- `heap_sort` (heap.c:196-221). -/
def heapSort (l : List Nat) : List Nat := heapSortGo l.length l []

/-- The reference descending sort used to state top-N correctness. -/
def sortDesc (l : List Nat) : List Nat := l.insertionSort (fun a b => a ≥ b)

/-! ### Theorems for the Levenshtein model (claim C7) -/

theorem levRec_nil_left (b : List Char) : levRec [] b = b.length := by
  simp [levRec]

theorem levRec_nil_right (a : List Char) : levRec a [] = a.length := by
  cases a <;> simp [levRec]

theorem levRec_cons_cons (a b : Char) (as bs : List Char) :
    levRec (a :: as) (b :: bs) =
      min (min (levRec as (b :: bs) + 1) (levRec (a :: as) bs + 1))
        (levRec as bs + levCost a b) := by
  simp [levRec]

theorem levCost_comm (a b : Char) : levCost a b = levCost b a := by
  unfold levCost
  by_cases h : a = b <;> simp [h, Ne.symm, eq_comm]

theorem levCost_le_one (a b : Char) : levCost a b ≤ 1 := by
  unfold levCost; split <;> omega


theorem levRec_le_max (a b : List Char) : levRec a b ≤ max a.length b.length := by
  induction a, b using levRec.induct with
  | case1 b => simp [levRec_nil_left]
  | case2 a as => simp [levRec_nil_right]
  | case3 a as b bs ih1 ih2 ih3 =>
      rw [levRec_cons_cons]
      have hc := levCost_le_one a b
      simp only [List.length_cons] at *
      omega

theorem levRec_comm (a b : List Char) : levRec a b = levRec b a := by
  induction a, b using levRec.induct with
  | case1 b => simp [levRec_nil_left, levRec_nil_right]
  | case2 a as => simp [levRec_nil_left, levRec_nil_right]
  | case3 a as b bs ih1 ih2 ih3 =>
      rw [levRec_cons_cons, levRec_cons_cons, levCost_comm, ih1, ih2, ih3]
      omega


set_option maxHeartbeats 1000000 in
theorem levRec_snoc_aux : ∀ (n : Nat) (xs ys : List Char), xs.length + ys.length ≤ n →
    ∀ (c d : Char),
    levRec (xs ++ [c]) (ys ++ [d]) =
      min (min (levRec (xs ++ [c]) ys + 1) (levRec xs (ys ++ [d]) + 1))
        (levRec xs ys + levCost c d) := by
  intro n
  induction n with
  | zero =>
      intro xs ys h c d
      have hx : xs = [] := by cases xs <;> simp_all
      have hy : ys = [] := by cases ys <;> simp_all
      subst hx; subst hy
      simp only [List.nil_append]
      rw [levRec_cons_cons]
      simp [levRec_nil_left, levRec_nil_right]
  | succ n ih =>
      intro xs ys h c d
      match xs, ys with
      | [], [] =>
          simp only [List.nil_append]
          rw [levRec_cons_cons]
          simp [levRec_nil_left, levRec_nil_right]
      | [], y :: ys' =>
          have h1 := ih [] ys' (by simp at h ⊢; omega) c d
          simp only [List.nil_append, List.cons_append] at h1 ⊢
          rw [levRec_cons_cons c y [] (ys' ++ [d])]
          rw [levRec_cons_cons c y [] ys']
          rw [h1]
          simp only [levRec_nil_left, List.length_cons, List.length_append,
            List.length_nil]
          omega
      | x :: xs', [] =>
          have h2 := ih xs' [] (by simp at h ⊢; omega) c d
          simp only [List.nil_append, List.cons_append] at h2 ⊢
          rw [levRec_cons_cons x d (xs' ++ [c]) []]
          rw [levRec_cons_cons x d xs' []]
          rw [h2]
          simp only [levRec_nil_right, List.length_cons, List.length_append,
            List.length_nil]
          omega
      | x :: xs', y :: ys' =>
          have h1 := ih xs' (y :: ys') (by simp at h ⊢; omega) c d
          have h2 := ih (x :: xs') ys' (by simp at h ⊢; omega) c d
          have h3 := ih xs' ys' (by simp at h ⊢; omega) c d
          simp only [List.cons_append] at h1 h2 h3 ⊢
          rw [levRec_cons_cons x y (xs' ++ [c]) (ys' ++ [d])]
          rw [levRec_cons_cons x y (xs' ++ [c]) ys']
          rw [levRec_cons_cons x y xs' (ys' ++ [d])]
          rw [levRec_cons_cons x y xs' ys']
          rw [h1, h2, h3]
          generalize levRec xs' (y :: (ys' ++ [d])) = A
          generalize levRec (xs' ++ [c]) (y :: ys') = B
          generalize levRec xs' (y :: ys') = C
          generalize levRec (x :: xs') (ys' ++ [d]) = D
          generalize levRec (x :: (xs' ++ [c])) ys' = E
          generalize levRec (x :: xs') ys' = F
          generalize levRec xs' (ys' ++ [d]) = G
          generalize levRec (xs' ++ [c]) ys' = H
          generalize levRec xs' ys' = I
          generalize levCost x y = P
          generalize levCost c d = Q
          simp only [← min_add_add_right]
          refine le_antisymm ?_ ?_ <;> simp only [le_inf_iff, inf_le_iff] <;> omega


theorem levRec_snoc_le (p : List Char) (q : List Char) :
    levRec p q ≤ max p.length q.length := levRec_le_max p q

theorem levInner_spec (s1c : Char) (p : List Char) (hp : p.length + 1 ≤ 65535) :
    ∀ (s2' q : List Char), q.length + s2'.length ≤ 65535 →
    levInner s1c s2' (rowTail p q s2') (levRec (p ++ [s1c]) q) (levRec p q)
      = rowTail (p ++ [s1c]) q s2' := by
  intro s2'
  induction s2' with
  | nil => intro q h; simp [levInner, rowTail]
  | cons d rest ih =>
      intro q h
      simp only [rowTail, levInner]
      have hrec := levRec_snoc_aux (p.length + q.length) p q le_rfl s1c d
      have hv : min_u3 (levRec (p ++ [s1c]) q + 1) (levRec p (q ++ [d]) + 1)
          (levRec p q + levCost s1c d) = levRec (p ++ [s1c]) (q ++ [d]) := by
        rw [min_u3, hrec]
      rw [hv]
      have hb : levRec (p ++ [s1c]) (q ++ [d]) ≤ 65535 := by
        have := levRec_le_max (p ++ [s1c]) (q ++ [d])
        simp only [List.length_append, List.length_cons, List.length_nil] at this h
        omega
      have hmod : levRec (p ++ [s1c]) (q ++ [d]) % 65536
          = levRec (p ++ [s1c]) (q ++ [d]) := Nat.mod_eq_of_lt (by omega)
      rw [hmod]
      have hih := ih (q ++ [d]) (by
        simp only [List.length_append, List.length_cons, List.length_nil] at h ⊢
        omega)
      rw [hih]

theorem levRowStep_spec (s2 p : List Char) (s1c : Char)
    (hp : p.length + 1 ≤ 65535) (hs2 : s2.length ≤ 65535) :
    levRowStep s2 (rowFull p s2) p.length s1c = rowFull (p ++ [s1c]) s2 := by
  unfold rowFull levRowStep
  have hmod : (p.length + 1) % 65536 = p.length + 1 := Nat.mod_eq_of_lt (by omega)
  have hinner := levInner_spec s1c p hp s2 [] (by simpa using hs2)
  simp only [levRec_nil_right, List.length_append, List.length_cons,
    List.length_nil] at hinner ⊢
  rw [hmod, hinner]

theorem levFold_spec (s2 : List Char) (hs2 : s2.length ≤ 65535) :
    ∀ (s1' p : List Char), p.length + s1'.length ≤ 65535 →
    (List.enumFrom p.length s1').foldl
        (fun row pr => levRowStep s2 row pr.1 pr.2) (rowFull p s2)
      = rowFull (p ++ s1') s2 := by
  intro s1'
  induction s1' with
  | nil => intro p h; simp
  | cons c rest ih =>
      intro p h
      simp only [List.enumFrom_cons, List.foldl_cons]
      rw [levRowStep_spec s2 p c (by simp at h; omega) hs2]
      have := ih (p ++ [c]) (by simp at h ⊢; omega)
      simp only [List.length_append, List.length_cons, List.length_nil] at this
      simpa [List.append_assoc] using this


theorem rowTail_empty :
    ∀ (s2' q : List Char), rowTail [] q s2' = List.range' (q.length + 1) s2'.length := by
  intro s2'
  induction s2' with
  | nil => intro q; simp [rowTail]
  | cons d rest ih =>
      intro q
      have hih := ih (q ++ [d])
      simp only [List.length_append, List.length_nil] at hih
      simp [rowTail, levRec_nil_left, List.range'_succ, hih]

theorem rowTail_getD (p : List Char) :
    ∀ (s2' q : List Char), s2' ≠ [] →
    (rowTail p q s2').getD (s2'.length - 1) 0 = levRec p (q ++ s2') := by
  intro s2'
  induction s2' with
  | nil => intro q h; simp at h
  | cons d rest ih =>
      intro q _
      by_cases hr : rest = []
      · subst hr; simp [rowTail]
      · have hlen : (d :: rest).length - 1 = (rest.length - 1) + 1 := by
          cases rest with
          | nil => simp at hr
          | cons _ _ => simp
        simp only [rowTail, hlen, List.getD_cons_succ]
        rw [ih (q ++ [d]) hr]
        simp [List.append_assoc]


theorem levdistCore_correct (s1 s2 : List Char)
    (h1 : s1.length ≤ 65535) (h2 : s2.length ≤ 65535) :
    levdistCore s1 s2 = levRec s1 s2 := by
  unfold levdistCore
  by_cases e1 : s1.length = 0
  · have hs : s1 = [] := List.length_eq_zero.mp e1
    subst hs; simp [levRec_nil_left]
  · by_cases e2 : s2.length = 0
    · have hs : s2 = [] := List.length_eq_zero.mp e2
      subst hs; simp [levRec_nil_right, e1]
    · simp only [e1, e2, if_false]
      have hinit : (List.range (s2.length + 1)).map (· % 65536) = rowFull [] s2 := by
        have hmap : (List.range (s2.length + 1)).map (· % 65536)
            = (List.range (s2.length + 1)).map id := by
          refine List.map_congr_left ?_
          intro a ha
          simp only [List.mem_range] at ha
          simp only [id]
          omega
        rw [hmap, List.map_id, List.range_eq_range', List.range'_succ,
          rowFull, rowTail_empty s2 [], levRec_nil_right]
        simp
      have hfold := levFold_spec s2 h2 s1 [] (by simpa using h1)
      simp only [List.length_nil, List.nil_append] at hfold
      have henum : s1.enum = List.enumFrom 0 s1 := rfl
      rw [hinit, henum, hfold]
      have hm : s2.length - 1 + 1 = s2.length := by omega
      rw [rowFull, ← hm, List.getD_cons_succ]
      have := rowTail_getD s1 s2 [] (by
        intro hh; subst hh; simp at e2)
      simpa using this

/-- C7: the single-row Wagner–Fischer implementation `levdist` computes
exactly the naive recursive Levenshtein distance `levRec`, for strings of
length up to 65535, independently of the argument order. -/
theorem levdist_eq_levRec (s1 s2 : List Char)
    (h1 : s1.length ≤ 65535) (h2 : s2.length ≤ 65535) :
    levdist s1 s2 = levRec s1 s2 ∧ levdist s2 s1 = levRec s1 s2 := by
  constructor
  · unfold levdist
    split
    · rw [levdistCore_correct s2 s1 h2 h1, levRec_comm]
    · exact levdistCore_correct s1 s2 h1 h2
  · unfold levdist
    split
    · exact levdistCore_correct s1 s2 h1 h2
    · rw [levdistCore_correct s2 s1 h2 h1, levRec_comm]

/-- Witness for C7 at a concrete input. -/
theorem levdist_eq_levRec_witness :
    levdist ['k','i','t','t','e','n'] ['s','i','t','t','i','n','g']
        = levRec ['k','i','t','t','e','n'] ['s','i','t','t','i','n','g'] ∧
    levdist ['s','i','t','t','i','n','g'] ['k','i','t','t','e','n']
        = levRec ['k','i','t','t','e','n'] ['s','i','t','t','i','n','g'] :=
  levdist_eq_levRec ['k','i','t','t','e','n'] ['s','i','t','t','i','n','g']
    (by decide) (by decide)

/-! ### Theorems for fuzzy selection (claim C3) -/

theorem fuzzySelect_foldl_aux {α : Type} (p : α → Prop) [DecidablePred p] :
    ∀ (l : List α) (acc : Option α),
    l.foldl (fun t it => if p it then some it else t) acc
      = match l.reverse.find? (fun x => decide (p x)) with
        | some x => some x
        | none => acc := by
  intro l
  induction l with
  | nil => intro acc; simp
  | cons x xs ih =>
      intro acc
      simp only [List.foldl_cons, List.reverse_cons, List.find?_append]
      rw [ih]
      cases hfx : xs.reverse.find? (fun x => decide (p x)) with
      | some y => simp [hfx, Option.orElse]
      | none =>
          by_cases hx : p x <;> simp [hfx, hx, Option.orElse, List.find?]

/-- Amended C3: `idxterm_fuzzysearch` returns the *first* candidate in
deque push order whose global occurrence counter is nonzero (because the
comparison variable `term_total` is never updated, the last write in
pop-back iteration order wins), and returns `none` whenever every
candidate has a zero counter — even if candidates exist. -/
theorem fuzzySelect_eq_find {α : Type} (total : α → Nat) (results : List α) :
    fuzzySelect total results = results.find? (fun t => total t > 0) ∧
    (fuzzySelect total results = none ↔ ∀ t ∈ results, total t = 0) := by
  have h1 : fuzzySelect total results = results.find? (fun t => total t > 0) := by
    unfold fuzzySelect
    rw [fuzzySelect_foldl_aux (fun t => total t > 0) results.reverse none]
    rw [List.reverse_reverse]
    show (match results.find? (fun t => decide (total t > 0)) with
      | some x => some x
      | none => none) = _
    cases results.find? (fun t => total t > 0) <;> simp
  refine ⟨h1, ?_⟩
  rw [h1, List.find?_eq_none]
  constructor
  · intro h t ht
    have := h t ht
    simp at this
    omega
  · intro h t ht
    have := h t ht
    simp [this]

/-- Counterexample to C3 as stated: with candidates pushed in order
`[1, 5]` (each its own global total, via `total = id`), the candidate
with the largest total is `5`, but the selection loop returns `1`;
so `idxterm_fuzzysearch` does not return the candidate with the largest
global occurrence count.  Moreover with the single candidate `[0]`
(zero total) it returns `none` although a candidate exists. -/
theorem fuzzySelect_counterexample :
    fuzzySelect (fun n => n) [1, 5] = some 1 ∧
    fuzzySelect (fun n => n) [1, 5] ≠ some 5 ∧
    fuzzySelect (fun n => n) [0] = none := by
  refine ⟨by decide, by decide, by decide⟩

/-! ### Theorems for BM25 (claim C6) -/

theorem bm25_eval_code : bm25 1 2 3 1 3
    = some (Real.log 2 / (Real.log 2 + 3) * Real.log 2) := by
  unfold bm25
  norm_num

theorem bm25_eval_claim : bm25ClaimReal 1 2 3 1 3
    = some (Real.log 2 / (Real.log 2 + 2.1) * Real.log 2) := by
  unfold bm25ClaimReal
  norm_num

/-- Counterexample to C6 as stated: with `token_count = 3`,
`doc_count = 2` (so the real-valued average document length would be
1.5 while the C integer division gives 1), `tf = 1`, `df = 1`, `dl = 3`,
the value computed by `bm25()` differs from the claim's formula. -/
theorem bm25_counterexample : bm25 1 2 3 1 3 ≠ bm25ClaimReal 1 2 3 1 3 := by
  rw [bm25_eval_code, bm25_eval_claim]
  have hL : (0:ℝ) < Real.log 2 := Real.log_pos (by norm_num)
  have h1 : Real.log 2 / (Real.log 2 + 3) < Real.log 2 / (Real.log 2 + 2.1) :=
    div_lt_div_of_pos_left hL (by linarith) (by linarith)
  have h2 : Real.log 2 / (Real.log 2 + 3) * Real.log 2
      < Real.log 2 / (Real.log 2 + 2.1) * Real.log 2 :=
    mul_lt_mul_of_pos_right h1 hL
  intro h
  rw [Option.some.injEq] at h
  linarith

/-- Amended C6: `bm25` returns exactly the claim's formula with `adl`
replaced by the integer quotient `⌊token_count / doc_count⌋` (the C
`uint64_t / uint32_t` division), and returns NaN (`none`) exactly when
`tf ≤ 0` or that quotient is zero. -/
theorem bm25_eq_claimFloor (term_freq : ℤ) (doc_count token_count doc_freq dl : ℕ) :
    bm25 term_freq doc_count token_count doc_freq dl
      = bm25ClaimFloor term_freq doc_count token_count doc_freq dl ∧
    (bm25 term_freq doc_count token_count doc_freq dl = none ↔
      term_freq ≤ 0 ∨ token_count / doc_count = 0) := by
  constructor
  · rfl
  · unfold bm25
    dsimp only
    split <;> simp_all

/-! ### Theorems for the add-path doc-id checks (claim C8) -/

/-- Counterexample to C8 as stated: `doc_id = 2^32` exceeds `u32::MAX =
2^32 - 1`, yet the validation in `nxs_index_add` lets it pass (no
INVALID error), and `idxterm_add_doc` accepts it unconditionally. -/
theorem nxsIndexAddValidate_counterexample :
    2 ^ 32 - 1 < (2 ^ 32 : Nat) ∧
    nxsIndexAddValidate (2 ^ 32) (fun _ => false) = none ∧
    (idxtermAddDoc ∅ (2 ^ 32)).1 = 0 := by
  refine ⟨by norm_num, by decide, by decide⟩

/-- Amended C8: `nxs_index_add` rejects `doc_id = 0` (with `EINVAL`,
before anything is modified), and rejects an already-indexed id with
`EEXIST`; it performs no upper-bound check at all, so any other id —
including ids above `u32::MAX` — passes validation, and
`idxterm_add_doc` succeeds unconditionally. -/
theorem nxsIndexAddValidate_amended (docId : Nat) (indexed : Nat → Bool)
    (bm : Finset Nat) (h1 : docId ≠ 0) (h2 : indexed docId = false) :
    nxsIndexAddValidate docId indexed = none ∧
    (idxtermAddDoc bm docId).1 = 0 ∧
    nxsIndexAddValidate 0 indexed = some NxsErr.INVALID := by
  refine ⟨?_, rfl, rfl⟩
  unfold nxsIndexAddValidate
  simp [h1, h2]

/-- Witness for the amended C8 at `doc_id = 2^32`. -/
theorem nxsIndexAddValidate_amended_witness :
    nxsIndexAddValidate (2 ^ 32) (fun _ => false) = none ∧
    (idxtermAddDoc ∅ (2 ^ 32)).1 = 0 ∧
    nxsIndexAddValidate 0 (fun _ => false) = some NxsErr.INVALID :=
  nxsIndexAddValidate_amended (2 ^ 32) (fun _ => false) ∅ (by decide) rfl


/-! ### Theorems for the BK-tree (claim C2) -/

/-- C2 fails on the code: `levdist("ab","cd") = 2 ≤ LEVDIST_TOLERANCE`,
both strings are inserted, yet searching for `"ab"` with tolerance 2
returns only `"ab"` — `"cd"` sits in child slot 2 of the root, and
`bknode_get_range(root, 0, 2)` masks bits `[0, 2)`, excluding slot
`d + tolerance = 2`, so that child is never visited.  (The bktree.c
header comment itself requires the range to be inclusive.) -/
theorem bktreeSearch_missing_dist2 :
    levdist ['a','b'] ['c','d'] = 2 ∧
    ((bktreeInsert ⟨none⟩ ['a','b']).bind
        (fun t => bktreeInsert t ['c','d'])).map
      (fun t => bktreeSearch t 2 ['a','b'])
      = some [['a','b']] := by
  refine ⟨by decide, by decide⟩

/-! ## Search path (src/query/search.c, src/query/query.c,
src/core/tokenizer.c) -/

/-- Query expression operators (src/query/expr.h): `EXPR_OP_AND`,
`EXPR_OP_OR`, `EXPR_OP_NOT`. -/
inductive ExprOp where
  | AND
  | OR
  | NOT
deriving DecidableEq, Repr

/-- A query expression tree (src/query/expr.h): a leaf carries the raw
value string to be tokenized; an operator node carries its sub-expressions
(`expr->elements`, `expr->nitems`). -/
inductive Expr where
  | tokenLeaf (value : List Char)
  | opNode (o : ExprOp) (elems : List Expr)

mutual

/-- The leaf values reached by the deep walk of `query_prepare`
(query.c:82-105).  The C walk uses an explicit deque as a stack, so it
visits leaves in a different order, but it reaches exactly these leaves. -/
def collectLeaves : Expr → List (List Char)
  | .tokenLeaf v => [v]
  | .opNode _ es => collectLeavesList es

def collectLeavesList : List Expr → List (List Char)
  | [] => []
  | e :: es => collectLeaves e ++ collectLeavesList es

end

/-- Resolution of one token to a term id (tokenizer.c:161-199, the body of
the `tokenset_resolve` loop): `idxterm_lookup`, then, if that fails and
`TOKENSET_FUZZYMATCH` is set, `idxterm_fuzzysearch`. -/
def resolveTok (lookup fuzzy : List Char → Option Nat) (fm : Bool)
    (t : List Char) : Option Nat :=
  match lookup t with
  | some tid => some tid
  | none => if fm then fuzzy t else none

/-- `tokenset_resolve` with `TOKENSET_TRIM` (tokenizer.c:161-199): tokens
that resolve keep their term id, unresolved tokens are removed from the
list (`tokenset_remove`, which also decrements `tset->count`). -/
def tokensetResolveTrim (lookup fuzzy : List Char → Option Nat) (fm : Bool) :
    List (List Char) → List (List Char × Nat)
  | [] => []
  | t :: ts =>
    match resolveTok lookup fuzzy fm t with
    | none => tokensetResolveTrim lookup fuzzy fm ts
    | some tid => (t, tid) :: tokensetResolveTrim lookup fuzzy fm ts

/-- `tokenset_add` deduplication (tokenizer.c:100-117): a value already in
the set only increments its counter; the list keeps the first occurrence. -/
def dedupFirstGo (seen : List (List Char)) : List (List Char) → List (List Char)
  | [] => []
  | x :: xs => if x ∈ seen then dedupFirstGo seen xs else x :: dedupFirstGo (x :: seen) xs

/-- `query_prepare` (query.c:75-114): tokenize every leaf value of the
expression tree (`tokenize_value`; `none` = the filter pipeline discarded
the value), collect the distinct tokens, and resolve them with
`TOKENSET_TRIM | flags`.  A `NULL` root produces an empty token set. -/
def queryPrepare (tokenize : List Char → Option (List Char))
    (lookup fuzzy : List Char → Option Nat) (fm : Bool)
    (root : Option Expr) : List (List Char × Nat) :=
  match root with
  | none => []
  | some rt =>
    tokensetResolveTrim lookup fuzzy fm
      (dedupFirstGo [] ((collectLeaves rt).filterMap tokenize))

mutual

/-- `get_expr_bitmap` (search.c:118-174): recursion depth above
`NXS_QUERY_RLIMIT = 100` is an error (`none`); a leaf whose token is
absent yields the empty bitmap, a resolved leaf yields the term
doc-bitmap; an operator node folds its children with AND/OR/ANDNOT and
is an error when it has no children (`ASSERT(expr->nitems > 0)`). -/
def getExprBitmap (bitmaps : Nat → Finset Nat) (leafTerm : List Char → Option Nat) :
    Expr → Nat → Option (Finset Nat)
  | .tokenLeaf v, r =>
    if 100 < r then none
    else some (match leafTerm v with
      | some tid => bitmaps tid
      | none => ∅)
  | .opNode o es, r =>
    if 100 < r then none
    else match es with
      | [] => none
      | e0 :: rest =>
        match getExprBitmap bitmaps leafTerm e0 (r + 1) with
        | none => none
        | some acc => getExprBitmapList bitmaps leafTerm o acc rest (r + 1)

def getExprBitmapList (bitmaps : Nat → Finset Nat) (leafTerm : List Char → Option Nat)
    (o : ExprOp) (acc : Finset Nat) : List Expr → Nat → Option (Finset Nat)
  | [], _ => some acc
  | e :: es, r =>
    match getExprBitmap bitmaps leafTerm e r with
    | none => none
    | some bm =>
      getExprBitmapList bitmaps leafTerm o
        (match o with
          | .AND => acc ∩ bm
          | .OR => acc ∪ bm
          | .NOT => acc \ bm) es r

end

/-- The inner token loop of `run_query_logic` (search.c:240-270) for one
document: skip terms whose bitmap does not contain the document; a failed
`idxdoc_lookup` aborts the whole query (`goto out`); a negative rank
score is skipped, otherwise the result is recorded. -/
def scoreDocTokens (bitmaps : Nat → Finset Nat) (docPresent : Nat → Bool)
    (rank : Nat → Nat → Int) (docId : Nat) :
    List (List Char × Nat) → Option (List (Nat × Int))
  | [] => some []
  | (_, tid) :: rest =>
    if docId ∈ bitmaps tid then
      if docPresent docId then
        match scoreDocTokens bitmaps docPresent rank docId rest with
        | none => none
        | some rs =>
          if rank tid docId < 0 then some rs
          else some ((docId, rank tid docId) :: rs)
      else none
    else scoreDocTokens bitmaps docPresent rank docId rest

/-- The outer bitmap-iterator loop of `run_query_logic` (search.c:236-272):
documents in ascending id order. -/
def runQueryDocs (bitmaps : Nat → Finset Nat) (docPresent : Nat → Bool)
    (rank : Nat → Nat → Int) (tokens : List (List Char × Nat)) :
    List Nat → Option (List (Nat × Int))
  | [] => some []
  | d :: ds =>
    match scoreDocTokens bitmaps docPresent rank d tokens with
    | none => none
    | some rs =>
      match runQueryDocs bitmaps docPresent rank tokens ds with
      | none => none
      | some rest => some (rs ++ rest)

/-- `run_query_logic` (search.c:210-278).  The gate at search.c:224: a
`NULL` expression root or an empty (post-trim) token set returns success
with the response left empty. -/
def runQueryLogic (root : Option Expr) (tokens : List (List Char × Nat))
    (leafTerm : List Char → Option Nat) (bitmaps : Nat → Finset Nat)
    (docPresent : Nat → Bool) (rank : Nat → Nat → Int) :
    Option (List (Nat × Int)) :=
  match root with
  | none => some []
  | some rt =>
    if tokens.length = 0 then some []
    else
      match getExprBitmap bitmaps leafTerm rt 0 with
      | none => none
      | some bm =>
        runQueryDocs bitmaps docPresent rank tokens (bm.sort (· ≤ ·))

/-- `nxs_index_search` (search.c:285-342): sync the terms and (partially)
the dtmap, parse and prepare the query (`parseOk` abstracts
`query_parse`/`q->error`; resource-allocation failures are out of scope),
then run the query logic; `none` models a `NULL` (error) return and
`some rs` the built response with result list `rs`. -/
def nxsIndexSearch (s : IndexSt) (parseOk : Bool) (root : Option Expr)
    (tokenize : List Char → Option (List Char))
    (lookup fuzzy : List Char → Option Nat) (fm : Bool)
    (rank : Nat → Nat → Int) : Option (List (Nat × Int)) :=
  match idxTermsSync s with
  | (_, some _) => none
  | (s1, none) =>
    match idxDtmapSync s1 true with
    | (_, some _) => none
    | (s2, none) =>
      if parseOk = false then none
      else
        runQueryLogic root (queryPrepare tokenize lookup fuzzy fm root)
          (fun v => (tokenize v).bind (resolveTok lookup fuzzy fm))
          (fun tid => (s2.terms tid).bitmap)
          (fun d => (s2.docDir.map Prod.fst).contains d)
          rank

/-! ### Theorems for the index-state model (claims C1, C4, C10) -/


theorem bstep_eq (st : IndexSt) (tc : Nat × Nat) (docId : Nat) :
    idxtermIncrTotal (idxtermAddDocSt st tc.1 docId) tc.1 tc.2
      = { st with terms := fun t =>
            if t = tc.1 then
              ⟨((st.terms t).total + tc.2) % 2 ^ 64, insert docId (st.terms t).bitmap⟩
            else st.terms t } := by
  unfold idxtermIncrTotal idxtermAddDocSt
  congr 1
  funext t
  by_cases h : t = tc.1 <;> simp [h]

theorem buildBlock_pointwise (docId : Nat) :
    ∀ (tokens : List (Nat × Nat)) (s : IndexSt),
    (tokens.map Prod.fst).Nodup → ∀ (t : Nat),
    (dtmapBuildBlockSt s docId tokens).terms t =
      match tokens.find? (fun tc => tc.1 = t) with
      | some tc => ⟨((s.terms t).total + tc.2) % 2 ^ 64, insert docId (s.terms t).bitmap⟩
      | none => s.terms t := by
  intro tokens
  induction tokens with
  | nil => intro s _ t; simp [dtmapBuildBlockSt]
  | cons tc rest ih =>
      intro s hnd t
      simp only [List.map_cons, List.nodup_cons] at hnd
      have hstep : dtmapBuildBlockSt s docId (tc :: rest)
          = dtmapBuildBlockSt (idxtermIncrTotal (idxtermAddDocSt s tc.1 docId) tc.1 tc.2)
              docId rest := by
        simp [dtmapBuildBlockSt]
      rw [hstep, ih _ hnd.2 t, bstep_eq]
      by_cases he : tc.1 = t
      · subst he
        have : rest.find? (fun tc' => tc'.1 = tc.1) = none := by
          rw [List.find?_eq_none]
          intro x hx
          simp only [decide_eq_true_eq]
          intro hx1
          exact hnd.1 (hx1 ▸ List.mem_map_of_mem Prod.fst hx)
        simp [this, List.find?]
      · have hfind : (tc :: rest).find? (fun tc' => tc'.1 = t)
            = rest.find? (fun tc' => tc'.1 = t) := by
          simp [List.find?, he]
        cases hf : rest.find? (fun tc' => tc'.1 = t) <;>
          simp [hfind, hf, Ne.symm he, he]

theorem buildBlock_frame (docId : Nat) (tokens : List (Nat × Nat)) :
    ∀ (s : IndexSt),
    (dtmapBuildBlockSt s docId tokens).dtDataLen = s.dtDataLen ∧
    (dtmapBuildBlockSt s docId tokens).dtConsumed = s.dtConsumed ∧
    (dtmapBuildBlockSt s docId tokens).dtFile = s.dtFile ∧
    (dtmapBuildBlockSt s docId tokens).docDir = s.docDir ∧
    (dtmapBuildBlockSt s docId tokens).docCount = s.docCount ∧
    (dtmapBuildBlockSt s docId tokens).tokenCount = s.tokenCount ∧
    (dtmapBuildBlockSt s docId tokens).termDir = s.termDir ∧
    (dtmapBuildBlockSt s docId tokens).termsDataLen = s.termsDataLen ∧
    (dtmapBuildBlockSt s docId tokens).termsFile = s.termsFile ∧
    (dtmapBuildBlockSt s docId tokens).termsConsumed = s.termsConsumed ∧
    (dtmapBuildBlockSt s docId tokens).termsLastId = s.termsLastId := by
  induction tokens with
  | nil => intro s; simp [dtmapBuildBlockSt]
  | cons tc rest ih =>
      intro s
      have hstep : dtmapBuildBlockSt s docId (tc :: rest)
          = dtmapBuildBlockSt (idxtermIncrTotal (idxtermAddDocSt s tc.1 docId) tc.1 tc.2)
              docId rest := by
        simp [dtmapBuildBlockSt]
      rw [hstep]
      simpa [idxtermIncrTotal, idxtermAddDocSt] using
        ih (idxtermIncrTotal (idxtermAddDocSt s tc.1 docId) tc.1 tc.2)



theorem decrTotals_pointwise :
    ∀ (tokens : List (Nat × Nat)) (s : IndexSt),
    (tokens.map Prod.fst).Nodup → ∀ (t : Nat),
    (dtmapDecrTotals s tokens none).terms t =
      match tokens.find? (fun tc => tc.1 = t) with
      | some tc =>
          if (s.terms t).total < tc.2 then s.terms t
          else { s.terms t with total := (s.terms t).total - tc.2 }
      | none => s.terms t := by
  intro tokens
  induction tokens with
  | nil => intro s _ t; simp [dtmapDecrTotals]
  | cons tc rest ih =>
      intro s hnd t
      simp only [List.map_cons, List.nodup_cons] at hnd
      have hstep : dtmapDecrTotals s (tc :: rest) none
          = dtmapDecrTotals (idxtermDecrTotal s tc.1 tc.2) rest none := by
        simp [dtmapDecrTotals]
      rw [hstep, ih _ hnd.2 t]
      by_cases he : tc.1 = t
      · subst he
        have : rest.find? (fun tc' => tc'.1 = tc.1) = none := by
          rw [List.find?_eq_none]
          intro x hx
          simp only [decide_eq_true_eq]
          intro hx1
          exact hnd.1 (hx1 ▸ List.mem_map_of_mem Prod.fst hx)
        simp [this, List.find?, idxtermDecrTotal]
      · have hfind : (tc :: rest).find? (fun tc' => tc'.1 = t)
            = rest.find? (fun tc' => tc'.1 = t) := by
          simp [List.find?, he]
        have hkeep : (idxtermDecrTotal s tc.1 tc.2).terms t = s.terms t := by
          simp [idxtermDecrTotal, Ne.symm he]
        cases hf : rest.find? (fun tc' => tc'.1 = t) <;>
          simp [hfind, hf, hkeep]

theorem decrTotals_frame (tokens : List (Nat × Nat)) :
    ∀ (s : IndexSt),
    (dtmapDecrTotals s tokens none).dtDataLen = s.dtDataLen ∧
    (dtmapDecrTotals s tokens none).dtConsumed = s.dtConsumed ∧
    (dtmapDecrTotals s tokens none).dtFile = s.dtFile ∧
    (dtmapDecrTotals s tokens none).docDir = s.docDir ∧
    (dtmapDecrTotals s tokens none).docCount = s.docCount ∧
    (dtmapDecrTotals s tokens none).tokenCount = s.tokenCount ∧
    (dtmapDecrTotals s tokens none).termDir = s.termDir ∧
    (dtmapDecrTotals s tokens none).termsDataLen = s.termsDataLen := by
  induction tokens with
  | nil => intro s; simp [dtmapDecrTotals]
  | cons tc rest ih =>
      intro s
      have hstep : dtmapDecrTotals s (tc :: rest) none
          = dtmapDecrTotals (idxtermDecrTotal s tc.1 tc.2) rest none := by
        simp [dtmapDecrTotals]
      rw [hstep]
      simpa [idxtermDecrTotal] using ih (idxtermDecrTotal s tc.1 tc.2)

theorem decrTotals_bitmap :
    ∀ (tokens : List (Nat × Nat)) (s : IndexSt) (t : Nat),
    ((dtmapDecrTotals s tokens none).terms t).bitmap = ((s.terms t).bitmap) := by
  intro tokens
  induction tokens with
  | nil => intro s t; simp [dtmapDecrTotals]
  | cons tc rest ih =>
      intro s t
      have hstep : dtmapDecrTotals s (tc :: rest) none
          = dtmapDecrTotals (idxtermDecrTotal s tc.1 tc.2) rest none := by
        simp [dtmapDecrTotals]
      rw [hstep, ih]
      by_cases he : t = tc.1 <;> simp [idxtermDecrTotal, he] <;> split <;> simp



theorem idxDtmapSync_nop (s : IndexSt) (psync : Bool) (h : s.dtDataLen = s.dtConsumed) :
    idxDtmapSync s psync = (s, none) := by
  simp [idxDtmapSync, h]

/-- Amended C1: when `idx_dtmap_add` fails after the document-term block
has been built (here: the EEXIST race, the document id turning out to be
already indexed under the lock), `dtmap_decr_totals` restores every
term's global occurrence counter to its prior value (absent u64
wrap-around), and nothing else of the files, directories and header
counters has been touched — but `doc_id` is **not** removed from the
bitmaps: it remains in the `doc_bitmap` of every term of the token set. -/
theorem idxDtmapAdd_exists_rollback (s : IndexSt) (docId : Nat)
    (tokens : List (Nat × Nat))
    (hnd : (tokens.map Prod.fst).Nodup)
    (hsync : s.dtDataLen = s.dtConsumed)
    (hdoc : (s.docDir.map Prod.fst).contains docId = true)
    (hov : ∀ tc ∈ tokens, (s.terms tc.1).total + tc.2 < 2 ^ 64) :
    (idxDtmapAdd s docId tokens).2 = some NxsErr.EXISTS ∧
    (∀ t, ((idxDtmapAdd s docId tokens).1.terms t).total = (s.terms t).total) ∧
    (∀ t, ((idxDtmapAdd s docId tokens).1.terms t).bitmap =
      if t ∈ tokens.map Prod.fst then insert docId (s.terms t).bitmap
      else (s.terms t).bitmap) ∧
    (idxDtmapAdd s docId tokens).1.dtFile = s.dtFile ∧
    (idxDtmapAdd s docId tokens).1.docDir = s.docDir ∧
    (idxDtmapAdd s docId tokens).1.dtDataLen = s.dtDataLen ∧
    (idxDtmapAdd s docId tokens).1.docCount = s.docCount ∧
    (idxDtmapAdd s docId tokens).1.tokenCount = s.tokenCount ∧
    (idxDtmapAdd s docId tokens).1.termDir = s.termDir ∧
    (idxDtmapAdd s docId tokens).1.termsDataLen = s.termsDataLen := by
  have hb := buildBlock_frame docId tokens s
  set s1 := dtmapBuildBlockSt s docId tokens with hs1
  have hsync1 : idxDtmapSync s1 true = (s1, none) :=
    idxDtmapSync_nop s1 true (by rw [hb.1, hb.2.1]; exact hsync)
  have hlt : ¬ s1.dtConsumed < s1.dtDataLen := by
    rw [hb.1, hb.2.1]; omega
  have hdoc1 : (s1.docDir.map Prod.fst).contains docId = true := by
    rw [hb.2.2.2.1]; exact hdoc
  have hresult : idxDtmapAdd s docId tokens
      = (dtmapDecrTotals s1 tokens none, some NxsErr.EXISTS) := by
    unfold idxDtmapAdd
    dsimp only
    rw [← hs1, hsync1]
    simp only [hlt, if_false, hdoc1, if_true]
  rw [hresult]
  have hd := decrTotals_frame tokens s1
  refine ⟨rfl, ?_, ?_, ?_, ?_, ?_, ?_, ?_, ?_, ?_⟩
  · -- counters restored
    intro t
    rw [decrTotals_pointwise tokens s1 hnd t]
    cases hf : tokens.find? (fun tc => tc.1 = t) with
    | none =>
        rw [buildBlock_pointwise docId tokens s hnd t, hf]
    | some tc =>
        have htm := buildBlock_pointwise docId tokens s hnd t
        rw [hf] at htm
        have hmem : tc ∈ tokens := List.mem_of_find?_eq_some hf
        have heq : tc.1 = t := by
          have := List.find?_some hf
          simpa using this
        have hovt : (s.terms t).total + tc.2 < 2 ^ 64 := heq ▸ hov tc hmem
        rw [htm]
        dsimp only
        have hmod : ((s.terms t).total + tc.2) % 18446744073709551616
            = (s.terms t).total + tc.2 := Nat.mod_eq_of_lt (by omega)
        rw [show ((2:ℕ) ^ 64) = 18446744073709551616 by norm_num] at *
        rw [hmod, if_neg (by omega : ¬ (s.terms t).total + tc.2 < tc.2)]
        dsimp only
        omega
  · -- bitmaps keep doc_id
    intro t
    rw [decrTotals_bitmap tokens s1 t, buildBlock_pointwise docId tokens s hnd t]
    by_cases hm : t ∈ tokens.map Prod.fst
    · obtain ⟨tc, htc, htc1⟩ := List.mem_map.mp hm
      cases hf : tokens.find? (fun tc' => tc'.1 = t) with
      | none =>
          rw [List.find?_eq_none] at hf
          exact absurd (by simpa using htc1) (by simpa using hf tc htc)
      | some tc' => simp [hm]
    · cases hf : tokens.find? (fun tc' => tc'.1 = t) with
      | none => simp [hm]
      | some tc' =>
          have hmem : tc' ∈ tokens := List.mem_of_find?_eq_some hf
          have heq : tc'.1 = t := by
            have := List.find?_some hf
            simpa using this
          exact absurd (heq ▸ List.mem_map_of_mem Prod.fst hmem) hm
  · rw [hd.2.2.1, hb.2.2.1]
  · rw [hd.2.2.2.1, hb.2.2.2.1]
  · rw [hd.1, hb.1]
  · rw [hd.2.2.2.2.1, hb.2.2.2.2.1]
  · rw [hd.2.2.2.2.2.1, hb.2.2.2.2.2.1]
  · rw [hd.2.2.2.2.2.2.1, hb.2.2.2.2.2.2.1]
  · rw [hd.2.2.2.2.2.2.2, hb.2.2.2.2.2.2.2.1]

/-- Counterexample to C1 as stated: a state in which document 7 is
already indexed (so the add fails with EEXIST after building the block)
and term 1's bitmap does not contain 7.  After the failed
`idx_dtmap_add`, the counter is back at 5 but doc id 7 is still in the
term's bitmap: the index state is *not* unchanged on error. -/
theorem idxDtmapAdd_no_bitmap_rollback :
    ((idxDtmapAdd ⟨0, [], fun _ => ⟨5, ∅⟩, [1], 0, 1, 0, [], [(7, 32)], 0, 1, 3⟩
        7 [(1, 2)]).2 = some NxsErr.EXISTS) ∧
    (((idxDtmapAdd ⟨0, [], fun _ => ⟨5, ∅⟩, [1], 0, 1, 0, [], [(7, 32)], 0, 1, 3⟩
        7 [(1, 2)]).1.terms 1).total = 5) ∧
    (((idxDtmapAdd ⟨0, [], fun _ => ⟨5, ∅⟩, [1], 0, 1, 0, [], [(7, 32)], 0, 1, 3⟩
        7 [(1, 2)]).1.terms 1).bitmap ≠ (∅ : Finset Nat)) := by
  refine ⟨by decide, by decide, by decide⟩



/-- Witness for the amended C1 at a concrete state. -/
theorem idxDtmapAdd_exists_rollback_witness :
    (idxDtmapAdd ⟨0, [], fun _ => ⟨5, ∅⟩, [1], 0, 1, 0, [], [(7, 32)], 0, 1, 3⟩
        7 [(1, 2)]).2 = some NxsErr.EXISTS ∧
    (∀ t, ((idxDtmapAdd ⟨0, [], fun _ => ⟨5, ∅⟩, [1], 0, 1, 0, [], [(7, 32)], 0, 1, 3⟩
        7 [(1, 2)]).1.terms t).total
      = ((fun (_ : Nat) => (⟨5, ∅⟩ : TermSt)) t).total) ∧
    (∀ t, ((idxDtmapAdd ⟨0, [], fun _ => ⟨5, ∅⟩, [1], 0, 1, 0, [], [(7, 32)], 0, 1, 3⟩
        7 [(1, 2)]).1.terms t).bitmap =
      if t ∈ [(1, 2)].map ((Prod.fst : Nat × Nat → Nat)) then
        insert 7 ((fun (_ : Nat) => (⟨5, ∅⟩ : TermSt)) t).bitmap
      else ((fun (_ : Nat) => (⟨5, ∅⟩ : TermSt)) t).bitmap) := by
  have h := idxDtmapAdd_exists_rollback
    ⟨0, [], fun _ => ⟨5, ∅⟩, [1], 0, 1, 0, [], [(7, 32)], 0, 1, 3⟩ 7 [(1, 2)]
    (by decide) rfl (by decide) (by intro tc htc; simp at htc; subst htc; norm_num)
  exact ⟨h.1, h.2.1, h.2.2.1⟩



theorem rstep_eq (st : IndexSt) (tc : Nat × Nat) (docId : Nat) :
    idxtermDecrTotal (idxtermDelDocSt st tc.1 docId) tc.1 tc.2
      = { st with terms := fun t =>
            if t = tc.1 then
              (if (st.terms t).total < tc.2 then
                { (st.terms t) with bitmap := (st.terms t).bitmap.erase docId }
              else ⟨(st.terms t).total - tc.2, (st.terms t).bitmap.erase docId⟩)
            else st.terms t } := by
  unfold idxtermDecrTotal idxtermDelDocSt
  congr 1
  funext t
  by_cases h : t = tc.1 <;> simp [h]

theorem removeTupleLoop_spec (docId : Nat) :
    ∀ (tuples : List (Nat × Nat)) (s : IndexSt),
    (∀ tc ∈ tuples, s.termDir.contains tc.1 = true) →
    (tuples.map Prod.fst).Nodup →
    (removeTupleLoop docId s tuples).2 = true ∧
    (removeTupleLoop docId s tuples).1.termDir = s.termDir ∧
    (removeTupleLoop docId s tuples).1.termsDataLen = s.termsDataLen ∧
    (removeTupleLoop docId s tuples).1.termsFile = s.termsFile ∧
    (removeTupleLoop docId s tuples).1.termsConsumed = s.termsConsumed ∧
    (removeTupleLoop docId s tuples).1.termsLastId = s.termsLastId ∧
    (removeTupleLoop docId s tuples).1.dtFile = s.dtFile ∧
    (removeTupleLoop docId s tuples).1.docDir = s.docDir ∧
    (removeTupleLoop docId s tuples).1.dtDataLen = s.dtDataLen ∧
    (removeTupleLoop docId s tuples).1.dtConsumed = s.dtConsumed ∧
    (removeTupleLoop docId s tuples).1.docCount = s.docCount ∧
    (removeTupleLoop docId s tuples).1.tokenCount = s.tokenCount ∧
    (∀ t, (removeTupleLoop docId s tuples).1.terms t =
      match tuples.find? (fun tc => tc.1 = t) with
      | some tc =>
          if (s.terms t).total < tc.2 then
            { (s.terms t) with bitmap := (s.terms t).bitmap.erase docId }
          else ⟨(s.terms t).total - tc.2, (s.terms t).bitmap.erase docId⟩
      | none => s.terms t) := by
  intro tuples
  induction tuples with
  | nil =>
      intro s _ _
      refine ⟨rfl, rfl, rfl, rfl, rfl, rfl, rfl, rfl, rfl, rfl, rfl, rfl, ?_⟩
      intro t; simp [removeTupleLoop]
  | cons tc rest ih =>
      intro s hpres hnd
      simp only [List.map_cons, List.nodup_cons] at hnd
      have hc : s.termDir.contains tc.1 = true := hpres tc (List.mem_cons_self tc rest)
      have hstep : removeTupleLoop docId s (tc :: rest)
          = removeTupleLoop docId
              (idxtermDecrTotal (idxtermDelDocSt s tc.1 docId) tc.1 tc.2) rest := by
        simp only [removeTupleLoop, hc]
        rfl
      have hpres' : ∀ tc' ∈ rest,
          (idxtermDecrTotal (idxtermDelDocSt s tc.1 docId) tc.1 tc.2).termDir.contains tc'.1
            = true := by
        intro tc' h'
        simpa [idxtermDecrTotal, idxtermDelDocSt] using hpres tc' (List.mem_cons_of_mem tc h')
      obtain ⟨g1, g2, g3, g4, g5, g6, g7, g8, g9, g10, g11, g12, g13⟩ :=
        ih (idxtermDecrTotal (idxtermDelDocSt s tc.1 docId) tc.1 tc.2) hpres' hnd.2
      rw [hstep]
      refine ⟨g1,
        g2.trans (by simp [idxtermDecrTotal, idxtermDelDocSt]),
        g3.trans (by simp [idxtermDecrTotal, idxtermDelDocSt]),
        g4.trans (by simp [idxtermDecrTotal, idxtermDelDocSt]),
        g5.trans (by simp [idxtermDecrTotal, idxtermDelDocSt]),
        g6.trans (by simp [idxtermDecrTotal, idxtermDelDocSt]),
        g7.trans (by simp [idxtermDecrTotal, idxtermDelDocSt]),
        g8.trans (by simp [idxtermDecrTotal, idxtermDelDocSt]),
        g9.trans (by simp [idxtermDecrTotal, idxtermDelDocSt]),
        g10.trans (by simp [idxtermDecrTotal, idxtermDelDocSt]),
        g11.trans (by simp [idxtermDecrTotal, idxtermDelDocSt]),
        g12.trans (by simp [idxtermDecrTotal, idxtermDelDocSt]), ?_⟩
      intro t
      rw [g13 t]
      by_cases he : tc.1 = t
      · subst he
        have hnone : rest.find? (fun tc' => tc'.1 = tc.1) = none := by
          rw [List.find?_eq_none]
          intro x hx
          simp only [decide_eq_true_eq]
          intro hx1
          exact hnd.1 (hx1 ▸ List.mem_map_of_mem Prod.fst hx)
        rw [hnone]
        have hfind : (tc :: rest).find? (fun tc' => tc'.1 = tc.1) = some tc := by
          simp [List.find?]
        rw [hfind]
        simp [idxtermDecrTotal, idxtermDelDocSt]
      · have hfind : (tc :: rest).find? (fun tc' => tc'.1 = t)
            = rest.find? (fun tc' => tc'.1 = t) := by
          simp [List.find?, he]
        have hXt : (idxtermDecrTotal (idxtermDelDocSt s tc.1 docId) tc.1 tc.2).terms t
            = s.terms t := by
          simp [idxtermDecrTotal, idxtermDelDocSt, Ne.symm he]
        rw [hfind, hXt]



theorem idxTermsSync_nop (s : IndexSt) (h : s.termsDataLen = s.termsConsumed) :
    idxTermsSync s = (s, none) := by
  simp [idxTermsSync, h]

/-- C10: document removal never deletes terms.  On a synced state with
the document present, `idx_dtmap_remove` succeeds; the in-memory term
directory and everything of the terms file (data_len, blocks, mirror
position, last id) are unchanged; the only modifications are the zeroed
doc id of the document's block plus the appended 16-byte deletion
marker, the dtmap header counters, the mirror position, the document's
directory entry, and — per term of the document — the removed bitmap
membership and the decremented global occurrence counter. -/
theorem idxDtmapRemove_frame (s : IndexSt) (docId off i : Nat) (b : DocBlock)
    (hts : s.termsDataLen = s.termsConsumed)
    (hds : s.dtDataLen = s.dtConsumed)
    (hfind : s.docDir.find? (fun p => p.1 = docId) = some (docId, off))
    (hblk : dtFindBlockIdx s.dtFile off 32 = some i)
    (hget : s.dtFile.get? i = some b)
    (hpres : ∀ tc ∈ b.tuples, s.termDir.contains tc.1 = true)
    (hnd : (b.tuples.map Prod.fst).Nodup)
    (hdc : 0 < s.docCount) (hdc2 : s.docCount < 2 ^ 32)
    (htc : b.docLen ≤ s.tokenCount) (htc2 : s.tokenCount < 2 ^ 64) :
    (idxDtmapRemove s docId).2 = none ∧
    (idxDtmapRemove s docId).1.termDir = s.termDir ∧
    (idxDtmapRemove s docId).1.termsDataLen = s.termsDataLen ∧
    (idxDtmapRemove s docId).1.termsFile = s.termsFile ∧
    (idxDtmapRemove s docId).1.termsConsumed = s.termsConsumed ∧
    (idxDtmapRemove s docId).1.termsLastId = s.termsLastId ∧
    (idxDtmapRemove s docId).1.dtFile
      = (s.dtFile.set i { b with docId := 0 }) ++ [⟨docId, 0, []⟩] ∧
    (idxDtmapRemove s docId).1.docDir = s.docDir.filter (fun p => ¬ p.1 = docId) ∧
    (idxDtmapRemove s docId).1.docCount = s.docCount - 1 ∧
    (idxDtmapRemove s docId).1.tokenCount = s.tokenCount - b.docLen ∧
    (idxDtmapRemove s docId).1.dtDataLen = s.dtDataLen + 16 ∧
    (idxDtmapRemove s docId).1.dtConsumed = s.dtDataLen + 16 ∧
    (∀ t, (idxDtmapRemove s docId).1.terms t =
      match b.tuples.find? (fun tc => tc.1 = t) with
      | some tc =>
          if (s.terms t).total < tc.2 then
            { (s.terms t) with bitmap := (s.terms t).bitmap.erase docId }
          else ⟨(s.terms t).total - tc.2, (s.terms t).bitmap.erase docId⟩
      | none => s.terms t) := by
  have hs3pres : ∀ tc ∈ b.tuples,
      ({ s with dtFile := s.dtFile.set i { b with docId := 0 } } :
        IndexSt).termDir.contains tc.1 = true := by
    intro tc h'; exact hpres tc h'
  obtain ⟨g1, g2, g3, g4, g5, g6, g7, g8, g9, g10, g11, g12, g13⟩ :=
    removeTupleLoop_spec docId b.tuples
      { s with dtFile := s.dtFile.set i { b with docId := 0 } } hs3pres hnd
  set s3 : IndexSt := { s with dtFile := s.dtFile.set i { b with docId := 0 } } with hs3
  have hloop : removeTupleLoop docId s3 b.tuples
      = ((removeTupleLoop docId s3 b.tuples).1, true) := by
    rw [← g1]
  have hres : idxDtmapRemove s docId
      = ({ (removeTupleLoop docId s3 b.tuples).1 with
            dtFile := (removeTupleLoop docId s3 b.tuples).1.dtFile
              ++ [{ docId := docId, docLen := 0, tuples := [] }]
            docDir := (removeTupleLoop docId s3 b.tuples).1.docDir.filter
              (fun p => ¬ p.1 = docId)
            docCount := ((removeTupleLoop docId s3 b.tuples).1.docCount + (2 ^ 32 - 1)) % 2 ^ 32
            tokenCount := ((removeTupleLoop docId s3 b.tuples).1.tokenCount
              + (2 ^ 64 - b.docLen % 2 ^ 64)) % 2 ^ 64
            dtConsumed := (removeTupleLoop docId s3 b.tuples).1.dtDataLen + (8 + 8)
            dtDataLen := (removeTupleLoop docId s3 b.tuples).1.dtDataLen + (8 + 8) },
          none) := by
    unfold idxDtmapRemove
    rw [idxTermsSync_nop s hts]
    dsimp only
    rw [idxDtmapSync_nop s false hds]
    dsimp only
    rw [hfind]
    dsimp only
    rw [hblk]
    dsimp only
    rw [hget]
    dsimp only
    rw [← hs3, hloop]
  rw [hres]
  dsimp only
  have hdl : (removeTupleLoop docId s3 b.tuples).1.dtDataLen = s.dtDataLen := by
    rw [g9]
  refine ⟨rfl, ?_, ?_, ?_, ?_, ?_, ?_, ?_, ?_, ?_, ?_, ?_, ?_⟩
  · rw [g2]
  · rw [g3]
  · rw [g4]
  · rw [g5]
  · rw [g6]
  · rw [g7]
  · rw [g8]
  · rw [g11, show s3.docCount = s.docCount from rfl]; omega
  · rw [g12, show s3.tokenCount = s.tokenCount from rfl]; omega
  · rw [hdl]
  · rw [hdl]
  · intro t
    exact g13 t



/-- Witness for C10 at a concrete one-term, one-document state. -/
theorem idxDtmapRemove_frame_witness :
    (idxDtmapRemove ⟨0, [], fun _ => ⟨4, {9}⟩, [1], 0, 1,
        24, [⟨9, 4, [(1, 4)]⟩], [(9, 32)], 24, 1, 4⟩ 9).2 = none ∧
    (idxDtmapRemove ⟨0, [], fun _ => ⟨4, {9}⟩, [1], 0, 1,
        24, [⟨9, 4, [(1, 4)]⟩], [(9, 32)], 24, 1, 4⟩ 9).1.termDir = [1] ∧
    (idxDtmapRemove ⟨0, [], fun _ => ⟨4, {9}⟩, [1], 0, 1,
        24, [⟨9, 4, [(1, 4)]⟩], [(9, 32)], 24, 1, 4⟩ 9).1.termsDataLen = 0 ∧
    (idxDtmapRemove ⟨0, [], fun _ => ⟨4, {9}⟩, [1], 0, 1,
        24, [⟨9, 4, [(1, 4)]⟩], [(9, 32)], 24, 1, 4⟩ 9).1.dtFile
      = [⟨0, 4, [(1, 4)]⟩, ⟨9, 0, []⟩] := by
  have h := idxDtmapRemove_frame
    ⟨0, [], fun _ => ⟨4, {9}⟩, [1], 0, 1, 24, [⟨9, 4, [(1, 4)]⟩], [(9, 32)], 24, 1, 4⟩
    9 32 0 ⟨9, 4, [(1, 4)]⟩ rfl rfl (by decide) (by decide) (by decide)
    (by decide) (by decide) (by decide) (by decide) (by decide) (by decide)
  exact ⟨h.1, h.2.1, h.2.2.1, h.2.2.2.2.2.2.1⟩



theorem idxTermsSyncGo_mono :
    ∀ (vs : List (List Char)) (s : IndexSt) (n : Nat),
    s.termsConsumed ≤ (idxTermsSyncGo s vs n).1.termsConsumed ∧
    (idxTermsSyncGo s vs n).1.termsConsumed ≤ s.termsConsumed + n ∧
    (idxTermsSyncGo s vs n).1.termsDataLen = s.termsDataLen ∧
    (idxTermsSyncGo s vs n).1.dtConsumed = s.dtConsumed ∧
    (idxTermsSyncGo s vs n).1.dtDataLen = s.dtDataLen := by
  intro vs
  induction vs with
  | nil =>
      intro s n
      match n with
      | 0 => simp [idxTermsSyncGo]
      | n + 1 => simp [idxTermsSyncGo]
  | cons v vs ih =>
      intro s n
      match n with
      | 0 => simp [idxTermsSyncGo]
      | n + 1 =>
          unfold idxTermsSyncGo
          by_cases hle : termBlockLen v.length ≤ n + 1
          · rw [if_pos hle]
            dsimp only
            obtain ⟨m1, m2, m3, m4, m5⟩ := ih { s with
              termsLastId := s.termsLastId + 1
              termDir := s.termDir ++ [s.termsLastId + 1]
              terms := fun t => if t = s.termsLastId + 1 then
                  { (s.terms t) with bitmap := ∅ } else s.terms t
              termsConsumed := s.termsConsumed + termBlockLen v.length }
              (n + 1 - termBlockLen v.length)
            dsimp only at m1 m2 m3 m4 m5
            exact ⟨by omega, by omega, m3, m4, m5⟩
          · rw [if_neg hle]
            simp

theorem idxTermsSyncGo_none :
    ∀ (vs : List (List Char)) (s : IndexSt) (n : Nat),
    (idxTermsSyncGo s vs n).2 = none →
    (idxTermsSyncGo s vs n).1.termsConsumed = s.termsConsumed + n := by
  intro vs
  induction vs with
  | nil =>
      intro s n
      match n with
      | 0 => simp [idxTermsSyncGo]
      | n + 1 => simp [idxTermsSyncGo]
  | cons v vs ih =>
      intro s n
      match n with
      | 0 => simp [idxTermsSyncGo]
      | n + 1 =>
          unfold idxTermsSyncGo
          by_cases hle : termBlockLen v.length ≤ n + 1
          · rw [if_pos hle]
            dsimp only
            intro hnone
            have := ih { s with
              termsLastId := s.termsLastId + 1
              termDir := s.termDir ++ [s.termsLastId + 1]
              terms := fun t => if t = s.termsLastId + 1 then
                  { (s.terms t) with bitmap := ∅ } else s.terms t
              termsConsumed := s.termsConsumed + termBlockLen v.length }
              (n + 1 - termBlockLen v.length) hnone
            simp only at this
            rw [this]
            omega
          · rw [if_neg hle]
            simp



theorem addDocFold_frame (docId : Nat) :
    ∀ (tps : List (Nat × Nat)) (s : IndexSt),
    ((tps.foldl (fun st tc => idxtermAddDocSt st tc.1 docId) s).dtConsumed = s.dtConsumed) ∧
    ((tps.foldl (fun st tc => idxtermAddDocSt st tc.1 docId) s).dtDataLen = s.dtDataLen) ∧
    ((tps.foldl (fun st tc => idxtermAddDocSt st tc.1 docId) s).termsConsumed
      = s.termsConsumed) ∧
    ((tps.foldl (fun st tc => idxtermAddDocSt st tc.1 docId) s).termsDataLen
      = s.termsDataLen) := by
  intro tps
  induction tps with
  | nil => intro s; simp
  | cons tc rest ih =>
      intro s
      simp only [List.foldl_cons]
      have := ih (idxtermAddDocSt s tc.1 docId)
      simpa [idxtermAddDocSt] using this

theorem idxDtmapSyncGo_mono :
    ∀ (psync : Bool) (s : IndexSt) (bs : List DocBlock) (n : Nat),
    s.dtConsumed ≤ (idxDtmapSyncGo psync s bs n).1.dtConsumed ∧
    (idxDtmapSyncGo psync s bs n).1.dtConsumed ≤ s.dtConsumed + n ∧
    (idxDtmapSyncGo psync s bs n).1.dtDataLen = s.dtDataLen ∧
    (idxDtmapSyncGo psync s bs n).1.termsConsumed = s.termsConsumed ∧
    (idxDtmapSyncGo psync s bs n).1.termsDataLen = s.termsDataLen := by
  intro psync s bs n
  induction s, bs, n using idxDtmapSyncGo.induct psync with
  | case1 s bs => simp [idxDtmapSyncGo]
  | case2 s n => simp [idxDtmapSyncGo]
  | case3 s b bs n hle h0 ih =>
      rw [idxDtmapSyncGo, if_pos hle, if_pos h0]
      obtain ⟨m1, m2, m3, m4, m5⟩ := ih
      simp only at m1 m2 m3 m4 m5
      exact ⟨by omega, by omega, m3, m4, m5⟩
  | case4 s b bs n hle h0 hdel ih =>
      rw [idxDtmapSyncGo, if_pos hle, if_neg h0, if_pos hdel]
      obtain ⟨m1, m2, m3, m4, m5⟩ := ih
      simp only at m1 m2 m3 m4 m5
      exact ⟨by omega, by omega, m3, m4, m5⟩
  | case5 s b bs n hle h0 hdel hall ih =>
      rw [idxDtmapSyncGo, if_pos hle, if_neg h0, if_neg hdel, if_pos hall]
      obtain ⟨f1, f2, f3, f4⟩ := addDocFold_frame b.docId b.tuples
        { s with docDir := s.docDir ++ [(b.docId, 32 + s.dtConsumed)] }
      obtain ⟨m1, m2, m3, m4, m5⟩ := ih
      simp only at m1 m2 m3 m4 m5 f1 f2 f3 f4 ⊢
      refine ⟨by omega, by omega, ?_, ?_, ?_⟩
      · rw [m3, f2]
      · rw [m4, f3]
      · rw [m5, f4]
  | case6 s b bs n hle h0 hdel hall =>
      rw [idxDtmapSyncGo, if_pos hle, if_neg h0, if_neg hdel, if_neg hall]
      split <;> simp
  | case7 s b bs n hle =>
      rw [idxDtmapSyncGo, if_neg hle]
      simp

theorem idxDtmapSyncGo_none :
    ∀ (s : IndexSt) (bs : List DocBlock) (n : Nat),
    (idxDtmapSyncGo false s bs n).2 = none →
    (idxDtmapSyncGo false s bs n).1.dtConsumed = s.dtConsumed + n := by
  intro s bs n
  induction s, bs, n using idxDtmapSyncGo.induct false with
  | case1 s bs => simp [idxDtmapSyncGo]
  | case2 s n => simp [idxDtmapSyncGo]
  | case3 s b bs n hle h0 ih =>
      rw [idxDtmapSyncGo, if_pos hle, if_pos h0]
      intro hn
      simp only at ih hn
      rw [ih hn]
      omega
  | case4 s b bs n hle h0 hdel ih =>
      rw [idxDtmapSyncGo, if_pos hle, if_neg h0, if_pos hdel]
      intro hn
      simp only at ih hn
      rw [ih hn]
      omega
  | case5 s b bs n hle h0 hdel hall ih =>
      rw [idxDtmapSyncGo, if_pos hle, if_neg h0, if_neg hdel, if_pos hall]
      intro hn
      obtain ⟨f1, f2, f3, f4⟩ := addDocFold_frame b.docId b.tuples
        { s with docDir := s.docDir ++ [(b.docId, 32 + s.dtConsumed)] }
      simp only at ih hn f1 ⊢
      rw [ih hn]
      omega
  | case6 s b bs n hle h0 hdel hall =>
      rw [idxDtmapSyncGo, if_pos hle, if_neg h0, if_neg hdel, if_neg hall]
      intro hn
      simp at hn
  | case7 s b bs n hle =>
      rw [idxDtmapSyncGo, if_neg hle]
      intro hn
      simp at hn



theorem idxTermsSync_facts (s : IndexSt) :
    s.termsConsumed ≤ (idxTermsSync s).1.termsConsumed ∧
    (idxTermsSync s).1.termsConsumed ≤ max s.termsConsumed s.termsDataLen ∧
    (idxTermsSync s).1.termsDataLen = s.termsDataLen ∧
    (idxTermsSync s).1.dtConsumed = s.dtConsumed ∧
    (idxTermsSync s).1.dtDataLen = s.dtDataLen ∧
    ((idxTermsSync s).2 = none → s.termsConsumed ≤ s.termsDataLen →
      (idxTermsSync s).1.termsConsumed = s.termsDataLen) := by
  unfold idxTermsSync
  by_cases heq : s.termsDataLen = s.termsConsumed
  · rw [if_pos heq]
    exact ⟨le_refl _, by simp only; omega, rfl, rfl, rfl, fun _ _ => heq.symm⟩
  · rw [if_neg heq]
    cases hdrop : dropTermBytes s.termsFile s.termsConsumed with
    | none =>
        exact ⟨le_refl _, by simp only; omega, rfl, rfl, rfl, by intro h; simp at h⟩
    | some vs =>
        obtain ⟨m1, m2, m3, m4, m5⟩ :=
          idxTermsSyncGo_mono vs s (s.termsDataLen - s.termsConsumed)
        refine ⟨m1, by simp only; omega, m3, m4, m5, ?_⟩
        intro hn hwf
        have := idxTermsSyncGo_none vs s (s.termsDataLen - s.termsConsumed) hn
        simp only
        omega

theorem idxDtmapSync_facts (s : IndexSt) (psync : Bool) :
    s.dtConsumed ≤ (idxDtmapSync s psync).1.dtConsumed ∧
    (idxDtmapSync s psync).1.dtConsumed ≤ max s.dtConsumed s.dtDataLen ∧
    (idxDtmapSync s psync).1.dtDataLen = s.dtDataLen ∧
    (idxDtmapSync s psync).1.termsConsumed = s.termsConsumed ∧
    (idxDtmapSync s psync).1.termsDataLen = s.termsDataLen ∧
    ((idxDtmapSync s false).2 = none → s.dtConsumed ≤ s.dtDataLen →
      (idxDtmapSync s false).1.dtConsumed = s.dtDataLen) := by
  have hmain : ∀ (b : Bool),
      s.dtConsumed ≤ (idxDtmapSync s b).1.dtConsumed ∧
      (idxDtmapSync s b).1.dtConsumed ≤ max s.dtConsumed s.dtDataLen ∧
      (idxDtmapSync s b).1.dtDataLen = s.dtDataLen ∧
      (idxDtmapSync s b).1.termsConsumed = s.termsConsumed ∧
      (idxDtmapSync s b).1.termsDataLen = s.termsDataLen := by
    intro b
    unfold idxDtmapSync
    by_cases heq : s.dtDataLen = s.dtConsumed
    · rw [if_pos heq]
      exact ⟨le_refl _, by simp only; omega, rfl, rfl, rfl⟩
    · rw [if_neg heq]
      cases hdrop : dropDtBytes s.dtFile s.dtConsumed with
      | none => exact ⟨le_refl _, by simp only; omega, rfl, rfl, rfl⟩
      | some bs =>
          obtain ⟨m1, m2, m3, m4, m5⟩ :=
            idxDtmapSyncGo_mono b s bs (s.dtDataLen - s.dtConsumed)
          exact ⟨m1, by simp only; omega, m3, m4, m5⟩
  obtain ⟨a1, a2, a3, a4, a5⟩ := hmain psync
  refine ⟨a1, a2, a3, a4, a5, ?_⟩
  intro hn hwf
  unfold idxDtmapSync at hn ⊢
  by_cases heq : s.dtDataLen = s.dtConsumed
  · rw [if_pos heq]
    exact heq.symm
  · rw [if_neg heq] at hn ⊢
    cases hdrop : dropDtBytes s.dtFile s.dtConsumed with
    | none => rw [hdrop] at hn; simp at hn
    | some bs =>
        rw [hdrop] at hn
        have := idxDtmapSyncGo_none s bs (s.dtDataLen - s.dtConsumed) hn
        simp only
        omega



theorem decrTotals_termsConsumed (tokens : List (Nat × Nat)) :
    ∀ (s : IndexSt),
    (dtmapDecrTotals s tokens none).termsConsumed = s.termsConsumed := by
  induction tokens with
  | nil => intro s; simp [dtmapDecrTotals]
  | cons tc rest ih =>
      intro s
      have hstep : dtmapDecrTotals s (tc :: rest) none
          = dtmapDecrTotals (idxtermDecrTotal s tc.1 tc.2) rest none := by
        simp [dtmapDecrTotals]
      rw [hstep]
      simpa [idxtermDecrTotal] using ih (idxtermDecrTotal s tc.1 tc.2)

theorem removeTupleLoop_mirror (docId : Nat) :
    ∀ (tuples : List (Nat × Nat)) (s : IndexSt),
    (removeTupleLoop docId s tuples).1.dtConsumed = s.dtConsumed ∧
    (removeTupleLoop docId s tuples).1.dtDataLen = s.dtDataLen ∧
    (removeTupleLoop docId s tuples).1.termsConsumed = s.termsConsumed := by
  intro tuples
  induction tuples with
  | nil => intro s; simp [removeTupleLoop]
  | cons tc rest ih =>
      intro s
      unfold removeTupleLoop
      by_cases hc : s.termDir.contains tc.1
      · rw [if_pos hc]
        simpa [idxtermDecrTotal, idxtermDelDocSt] using
          ih (idxtermDecrTotal (idxtermDelDocSt s tc.1 docId) tc.1 tc.2)
      · rw [if_neg hc]
        exact ⟨rfl, rfl, rfl⟩

theorem idxDtmapAdd_mono (s : IndexSt) (docId : Nat) (tokens : List (Nat × Nat))
    (hwf : s.dtConsumed ≤ s.dtDataLen) :
    s.dtConsumed ≤ (idxDtmapAdd s docId tokens).1.dtConsumed ∧
    s.termsConsumed ≤ (idxDtmapAdd s docId tokens).1.termsConsumed := by
  obtain ⟨b1, b2, _, _, _, _, _, b8, _, b10, _⟩ := buildBlock_frame docId tokens s
  unfold idxDtmapAdd
  dsimp only
  set s1 := dtmapBuildBlockSt s docId tokens with hs1
  obtain ⟨p1, p2, p3, p4, p5, _⟩ := idxDtmapSync_facts s1 true
  cases hsync : idxDtmapSync s1 true with
  | mk s2 e =>
      rw [hsync] at p1 p2 p3 p4 p5
      dsimp only at p1 p2 p3 p4 p5
      cases e with
      | some err =>
          dsimp only
          exact ⟨by omega, by omega⟩
      | none =>
          dsimp only
          by_cases hbehind : s2.dtConsumed < s2.dtDataLen
          · rw [if_pos hbehind]
            obtain ⟨q1, q2, q3, q4, q5, _⟩ := idxTermsSync_facts s2
            cases hts : idxTermsSync s2 with
            | mk s3 e2 =>
                rw [hts] at q1 q2 q3 q4 q5
                dsimp only at q1 q2 q3 q4 q5
                cases e2 with
                | some err2 =>
                    dsimp only
                    obtain ⟨_, d2, _, _, _, _, _, _⟩ := decrTotals_frame tokens s3
                    have dtc := decrTotals_termsConsumed tokens s3
                    exact ⟨by omega, by omega⟩
                | none =>
                    dsimp only
                    obtain ⟨r1, r2, r3, r4, r5, _⟩ := idxDtmapSync_facts s3 false
                    cases hds : idxDtmapSync s3 false with
                    | mk s4 e3 =>
                        rw [hds] at r1 r2 r3 r4 r5
                        dsimp only at r1 r2 r3 r4 r5
                        cases e3 with
                        | some err3 =>
                            dsimp only
                            obtain ⟨_, d2, _, _, _, _, _, _⟩ := decrTotals_frame tokens s4
                            have dtc := decrTotals_termsConsumed tokens s4
                            exact ⟨by omega, by omega⟩
                        | none =>
                            dsimp only
                            by_cases hex : (s4.docDir.map Prod.fst).contains docId = true
                            · rw [if_pos hex]
                              dsimp only
                              obtain ⟨_, d2, _, _, _, _, _, _⟩ := decrTotals_frame tokens s4
                              have dtc := decrTotals_termsConsumed tokens s4
                              exact ⟨by omega, by omega⟩
                            · rw [if_neg hex]
                              exact ⟨by dsimp only; omega, by dsimp only; omega⟩
          · rw [if_neg hbehind]
            dsimp only
            by_cases hex : (s2.docDir.map Prod.fst).contains docId = true
            · rw [if_pos hex]
              dsimp only
              obtain ⟨_, d2, _, _, _, _, _, _⟩ := decrTotals_frame tokens s2
              have dtc := decrTotals_termsConsumed tokens s2
              exact ⟨by omega, by omega⟩
            · rw [if_neg hex]
              exact ⟨by dsimp only; omega, by dsimp only; omega⟩

theorem idxDtmapRemove_mono (s : IndexSt) (docId : Nat)
    (hwf : s.dtConsumed ≤ s.dtDataLen) :
    s.dtConsumed ≤ (idxDtmapRemove s docId).1.dtConsumed ∧
    s.termsConsumed ≤ (idxDtmapRemove s docId).1.termsConsumed := by
  unfold idxDtmapRemove
  obtain ⟨q1, q2, q3, q4, q5, _⟩ := idxTermsSync_facts s
  cases hts : idxTermsSync s with
  | mk s1 e1 =>
      rw [hts] at q1 q2 q3 q4 q5
      dsimp only at q1 q2 q3 q4 q5
      cases e1 with
      | some err =>
                  dsimp only
                  exact ⟨by omega, by omega⟩
      | none =>
          dsimp only
          obtain ⟨r1, r2, r3, r4, r5, _⟩ := idxDtmapSync_facts s1 false
          cases hds : idxDtmapSync s1 false with
          | mk s2 e2 =>
              rw [hds] at r1 r2 r3 r4 r5
              dsimp only at r1 r2 r3 r4 r5
              cases e2 with
              | some err2 =>
                  dsimp only
                  exact ⟨by omega, by omega⟩
              | none =>
                  dsimp only
                  cases hfind : s2.docDir.find? (fun p => p.1 = docId) with
                  | none =>
                  dsimp only
                  exact ⟨by omega, by omega⟩
                  | some doc =>
                      dsimp only
                      cases hblk : dtFindBlockIdx s2.dtFile doc.2 32 with
                      | none =>
                  dsimp only
                  exact ⟨by omega, by omega⟩
                      | some i =>
                          dsimp only
                          cases hget : s2.dtFile.get? i with
                          | none =>
                  dsimp only
                  exact ⟨by omega, by omega⟩
                          | some b =>
                              dsimp only
                              obtain ⟨l1, l2, l3⟩ := removeTupleLoop_mirror docId b.tuples
                                { s2 with dtFile := s2.dtFile.set i { b with docId := 0 } }
                              dsimp only at l1 l2 l3
                              cases hloop : removeTupleLoop docId
                                  { s2 with dtFile := s2.dtFile.set i { b with docId := 0 } }
                                  b.tuples with
                              | mk s4 ok =>
                                  rw [hloop] at l1 l2 l3
                                  dsimp only at l1 l2 l3
                                  cases ok with
                                  | false =>
                  dsimp only
                  exact ⟨by omega, by omega⟩
                                  | true =>
                                      dsimp only
                                      exact ⟨by omega, by omega⟩

/-- Amended C4: the mirror positions `terms_consumed` and `dt_consumed`
never decrease across the modelled operations (both syncs, document add,
document removal); after a successful `idx_terms_sync` and after a
successful `idx_dtmap_sync` *without* `DTMAP_PARTIAL_SYNC`, the mirror
position equals the `data_len` read at the start of the sync; under
`PARTIAL_SYNC` the mirror advances only past fully consumed blocks and
never beyond `data_len` (an early stop can leave it strictly below). -/
theorem mirrorMonotone (s : IndexSt) (psync : Bool) (docId : Nat)
    (tokens : List (Nat × Nat))
    (hwfD : s.dtConsumed ≤ s.dtDataLen) (hwfT : s.termsConsumed ≤ s.termsDataLen) :
    s.termsConsumed ≤ (idxTermsSync s).1.termsConsumed ∧
    s.dtConsumed ≤ (idxDtmapSync s psync).1.dtConsumed ∧
    s.dtConsumed ≤ (idxDtmapAdd s docId tokens).1.dtConsumed ∧
    s.termsConsumed ≤ (idxDtmapAdd s docId tokens).1.termsConsumed ∧
    s.dtConsumed ≤ (idxDtmapRemove s docId).1.dtConsumed ∧
    s.termsConsumed ≤ (idxDtmapRemove s docId).1.termsConsumed ∧
    ((idxTermsSync s).2 = none → (idxTermsSync s).1.termsConsumed = s.termsDataLen) ∧
    ((idxDtmapSync s false).2 = none → (idxDtmapSync s false).1.dtConsumed = s.dtDataLen) ∧
    (idxDtmapSync s psync).1.dtConsumed ≤ s.dtDataLen := by
  obtain ⟨t1, _, _, _, _, t6⟩ := idxTermsSync_facts s
  obtain ⟨d1, d2, _, _, _, d6⟩ := idxDtmapSync_facts s psync
  obtain ⟨a1, a2⟩ := idxDtmapAdd_mono s docId tokens hwfD
  obtain ⟨m1, m2⟩ := idxDtmapRemove_mono s docId hwfD
  exact ⟨t1, d1, a1, a2, m1, m2, fun h => t6 h hwfT, fun h => d6 h hwfD, by omega⟩

/-- Counterexample to C4 as stated: an `idx_dtmap_sync` with
`DTMAP_PARTIAL_SYNC` that stops early (the single block references term
id 5, which is not in the term directory) returns success while the
mirror position `dt_consumed` stays at 0, below the `data_len = 24`
read at the start of the sync. -/
theorem idxDtmapSync_psync_counterexample :
    (idxDtmapSync ⟨0, [], fun _ => ⟨0, ∅⟩, [], 0, 0,
        24, [⟨1, 3, [(5, 2)]⟩], [], 0, 1, 3⟩ true).2 = none ∧
    (idxDtmapSync ⟨0, [], fun _ => ⟨0, ∅⟩, [], 0, 0,
        24, [⟨1, 3, [(5, 2)]⟩], [], 0, 1, 3⟩ true).1.dtConsumed = 0 ∧
    (⟨0, [], fun _ => ⟨0, ∅⟩, [], 0, 0,
        24, [⟨1, 3, [(5, 2)]⟩], [], 0, 1, 3⟩ : IndexSt).dtDataLen = 24 := by
  refine ⟨by decide, by decide, by decide⟩

/-- Witness for the amended C4 at a concrete state. -/
theorem mirrorMonotone_witness :
    (⟨0, [], fun _ => ⟨0, ∅⟩, [], 0, 0,
        24, [⟨1, 3, [(5, 2)]⟩], [], 0, 1, 3⟩ : IndexSt).dtConsumed ≤
      (idxDtmapSync ⟨0, [], fun _ => ⟨0, ∅⟩, [], 0, 0,
          24, [⟨1, 3, [(5, 2)]⟩], [], 0, 1, 3⟩ true).1.dtConsumed ∧
    (idxDtmapSync ⟨0, [], fun _ => ⟨0, ∅⟩, [], 0, 0,
        24, [⟨1, 3, [(5, 2)]⟩], [], 0, 1, 3⟩ true).1.dtConsumed ≤
      (⟨0, [], fun _ => ⟨0, ∅⟩, [], 0, 0,
          24, [⟨1, 3, [(5, 2)]⟩], [], 0, 1, 3⟩ : IndexSt).dtDataLen := by
  have h := mirrorMonotone
    ⟨0, [], fun _ => ⟨0, ∅⟩, [], 0, 0, 24, [⟨1, 3, [(5, 2)]⟩], [], 0, 1, 3⟩
    true 1 [] (by decide) (by decide)
  exact ⟨h.2.1, h.2.2.2.2.2.2.2.2⟩


/-! ### Theorems for the search path (claim C9) -/

theorem tokensetResolveTrim_nil (lookup fuzzy : List Char → Option Nat) (fm : Bool) :
    ∀ ts : List (List Char), (∀ t ∈ ts, resolveTok lookup fuzzy fm t = none) →
    tokensetResolveTrim lookup fuzzy fm ts = []
  | [], _ => rfl
  | t :: ts, h => by
    unfold tokensetResolveTrim
    rw [h t (by simp)]
    exact tokensetResolveTrim_nil lookup fuzzy fm ts (fun u hu => h u (by simp [hu]))

theorem mem_dedupFirstGo (x : List Char) :
    ∀ (seen ts : List (List Char)), x ∈ dedupFirstGo seen ts → x ∈ ts
  | _, [], h => by simp [dedupFirstGo] at h
  | seen, t :: ts, h => by
    unfold dedupFirstGo at h
    by_cases hm : t ∈ seen
    · simp only [if_pos hm] at h
      exact List.mem_cons_of_mem t (mem_dedupFirstGo x seen ts h)
    · simp only [if_neg hm] at h
      rcases List.mem_cons.1 h with h | h
      · exact h ▸ List.mem_cons_self t ts
      · exact List.mem_cons_of_mem t (mem_dedupFirstGo x (t :: seen) ts h)

/-- C9: if the query expression tree is empty, or no leaf value resolves to
a term after tokenization and `TOKENSET_TRIM` resolution, then — provided
the two preliminary syncs and the query parse succeed — `nxs_index_search`
returns a successful empty response (zero results), not an error. -/
theorem searchEmptyQuery (s : IndexSt) (root : Option Expr)
    (tokenize : List Char → Option (List Char))
    (lookup fuzzy : List Char → Option Nat) (fm : Bool) (rank : Nat → Nat → Int)
    (hts : (idxTermsSync s).2 = none)
    (hds : (idxDtmapSync (idxTermsSync s).1 true).2 = none)
    (hempty : root = none ∨ ∀ rt, root = some rt → ∀ v ∈ collectLeaves rt, ∀ t,
        tokenize v = some t → resolveTok lookup fuzzy fm t = none) :
    nxsIndexSearch s true root tokenize lookup fuzzy fm rank = some [] := by
  unfold nxsIndexSearch
  cases h1 : idxTermsSync s with
  | mk s1 e1 =>
  rw [h1] at hts hds
  dsimp only at hts hds
  subst hts
  cases h2 : idxDtmapSync s1 true with
  | mk s2 e2 =>
  rw [h2] at hds
  dsimp only at hds
  subst hds
  dsimp only
  rw [h2]
  dsimp only
  rcases hempty with hroot | hleaf
  · subst hroot
    rfl
  · cases root with
    | none => rfl
    | some rt =>
      have hnil : tokensetResolveTrim lookup fuzzy fm
          (dedupFirstGo [] ((collectLeaves rt).filterMap tokenize)) = [] := by
        apply tokensetResolveTrim_nil
        intro t ht
        obtain ⟨v, hv, hvt⟩ := List.mem_filterMap.1 (mem_dedupFirstGo t [] _ ht)
        exact hleaf rt rfl v hv t hvt
      unfold runQueryLogic queryPrepare
      dsimp only
      rw [hnil]
      rfl

/-- Witness for C9 at a concrete index state and one-leaf query whose
token resolves to no term. -/
theorem searchEmptyQuery_witness :
    nxsIndexSearch ⟨0, [], fun _ => ⟨0, ∅⟩, [], 0, 0, 0, [], [], 0, 0, 0⟩ true
      (some (.tokenLeaf [Char.ofNat 97])) (fun v => some v) (fun _ => none)
      (fun _ => none) true (fun _ _ => 0) = some [] :=
  searchEmptyQuery _ _ _ _ _ _ _ (by decide) (by decide)
    (Or.inr fun _ _ _ _ _ _ => rfl)

/-! ### Theorems for the top-N min-heap (claim C5) -/

theorem getD_set_self (l : List Nat) (i v : Nat) (h : i < l.length) :
    (l.set i v).getD i 0 = v := by
  rw [List.getD_eq_getElem _ _ (by simpa using h), List.getElem_set_self]

theorem getD_set_ne (l : List Nat) (i j v : Nat) (hne : i ≠ j) :
    (l.set i v).getD j 0 = l.getD j 0 := by
  by_cases hj : j < l.length
  · rw [List.getD_eq_getElem _ _ (by simpa using hj), List.getD_eq_getElem _ _ hj,
      List.getElem_set_ne (by omega)]
  · rw [List.getD_eq_default _ _ (by simpa using (by omega : l.length ≤ j)),
      List.getD_eq_default _ _ (by omega)]

theorem set_cons_perm (y : Nat) :
    ∀ (xs : List Nat) (k : Nat), k < xs.length →
    (xs.getD k 0 :: xs.set k y).Perm (y :: xs)
  | [], k, h => by simp at h
  | z :: zs, 0, _ => by
    simpa using List.Perm.swap y z zs
  | z :: zs, k + 1, h => by
    have ih := set_cons_perm y zs k (by simpa using h)
    show (zs.getD k 0 :: z :: zs.set k y).Perm (y :: z :: zs)
    refine List.Perm.trans (List.Perm.swap _ _ _) ?_
    refine List.Perm.trans (ih.cons z) ?_
    exact List.Perm.swap _ _ _

theorem swap_perm :
    ∀ (l : List Nat) (i j : Nat), i < l.length → j < l.length → i ≠ j →
    ((l.set i (l.getD j 0)).set j (l.getD i 0)).Perm l
  | [], i, _, hi, _, _ => by simp at hi
  | a :: t, 0, 0, _, _, hne => absurd rfl hne
  | a :: t, 0, m + 1, _, hj, _ => by
    have := set_cons_perm a t m (by simpa using hj)
    simpa using this
  | a :: t, k + 1, 0, hi, _, _ => by
    have := set_cons_perm a t k (by simpa using hi)
    simpa using this
  | a :: t, k + 1, m + 1, hi, hj, hne => by
    have ih := swap_perm t k m (by simpa using hi) (by simpa using hj) (by omega)
    simpa using ih.cons a

theorem siftUp_length (item : Nat) : ∀ (l : List Nat) (i : Nat),
    (siftUp item l i).length = l.length := by
  intro l i
  induction l, i using siftUp.induct item with
  | case1 l => rw [siftUp]; simp
  | case2 l i h1 h2 => rw [siftUp, if_neg h1, if_pos h2]
  | case3 l i h1 h2 ih =>
    rw [siftUp]
    rw [if_neg h1, if_neg h2, ih]
    simp

theorem siftUp_perm (item : Nat) : ∀ (l : List Nat) (i : Nat),
    i < l.length → l.getD i 0 = item → (siftUp item l i).Perm l := by
  intro l i
  induction l, i using siftUp.induct item with
  | case1 l => intro _ _; rw [siftUp]; simp
  | case2 l i h1 h2 => intro _ _; rw [siftUp, if_neg h1, if_pos h2]
  | case3 l i h1 h2 ih =>
    intro hi hitem
    rw [siftUp]
    rw [if_neg h1, if_neg h2]
    have hpi : (i - 1) / 2 < i := by omega
    have hperm : (((l.set ((i - 1) / 2) item).set i (l.getD ((i - 1) / 2) 0))).Perm l := by
      have := swap_perm l ((i - 1) / 2) i (by omega) hi (by omega)
      rwa [hitem] at this
    have hlen : i < ((l.set ((i - 1) / 2) item).set i (l.getD ((i - 1) / 2) 0)).length := by
      simpa using hi
    have hget : ((l.set ((i - 1) / 2) item).set i (l.getD ((i - 1) / 2) 0)).getD
        ((i - 1) / 2) 0 = item := by
      rw [getD_set_ne _ _ _ _ (by omega), getD_set_self _ _ _ (by omega)]
    exact (ih (by simpa using (by omega : (i - 1) / 2 < l.length)) hget).trans hperm

/-- The sift-up loop invariant: `item` is at `i`; every parent-child edge
not pointing into `i` satisfies the heap order; and the children of `i`
are bounded below by the value at `i`'s parent. -/
def siftUpInv (l : List Nat) (i : Nat) (item : Nat) : Prop :=
  l.getD i 0 = item ∧
  (∀ j < l.length, 0 < j → j ≠ i → l.getD ((j - 1) / 2) 0 ≤ l.getD j 0) ∧
  (∀ c < l.length, (c = 2 * i + 1 ∨ c = 2 * i + 2) → 0 < i →
    l.getD ((i - 1) / 2) 0 ≤ l.getD c 0)

theorem siftUp_heapInv (item : Nat) : ∀ (l : List Nat) (i : Nat),
    i < l.length → siftUpInv l i item → heapInv (siftUp item l i) := by
  intro l i
  induction l, i using siftUp.induct item with
  | case1 l =>
    intro hi hinv
    rw [siftUp]
    simp only [if_pos rfl]
    intro j hj hj0
    rcases hinv with ⟨_, hrest, _⟩
    exact hrest j hj hj0 (by omega)
  | case2 l i h1 h2 =>
    intro hi hinv
    rw [siftUp]
    simp only [if_neg h1, if_pos h2]
    intro j hj hj0
    rcases hinv with ⟨hit, hrest, _⟩
    by_cases hji : j = i
    · subst hji
      rw [hit]
      exact h2
    · exact hrest j hj hj0 hji
  | case3 l i h1 h2 ih =>
    intro hi hinv
    rw [siftUp]
    simp only [if_neg h1, if_neg h2]
    rcases hinv with ⟨hit, hrest, hchild⟩
    set pi := (i - 1) / 2 with hpi
    have hpilt : pi < i := by omega
    have hpil : pi < l.length := by omega
    set l2 := (l.set pi item).set i (l.getD pi 0) with hl2
    have hlen2 : l2.length = l.length := by simp [hl2]
    apply ih (by omega)
    refine ⟨?_, ?_, ?_⟩
    · rw [hl2, getD_set_ne _ _ _ _ (by omega), getD_set_self _ _ _ hpil]
    · -- all edges except the one into pi
      intro j hj hj0 hjpi
      rw [hlen2] at hj
      by_cases hji : j = i
      · -- edge pi -> i : item ≤ old parent
        subst hji
        have : l2.getD ((j - 1) / 2) 0 = item := by
          rw [hl2, getD_set_ne _ _ _ _ (by omega), getD_set_self _ _ _ hpil]
        rw [this, hl2, getD_set_self _ _ _ (by simpa using hi)]
        omega
      · -- edges not touching position i as child
        by_cases hparj : (j - 1) / 2 = i
        · -- j is a child of i: old value at j unchanged; new parent value
          -- is the old parent-of-pi... no: l2[i] = old l[pi]; need l[pi] ≤ l[j].
          have hv2j : l2.getD j 0 = l.getD j 0 := by
            rw [hl2, getD_set_ne _ _ _ _ (by omega), getD_set_ne _ _ _ _ (by omega)]
          have hv2p : l2.getD ((j - 1) / 2) 0 = l.getD pi 0 := by
            rw [hparj, hl2, getD_set_self _ _ _ (by simpa using hi)]
          rw [hv2j, hv2p]
          -- j is a child of i, so hchild bounds l[j] below by l[pi]
          have := hchild j hj (by omega) (by omega)
          exact this
        · by_cases hparpi : (j - 1) / 2 = pi
          · -- j is a child of pi (the sibling of i, or i handled above)
            have hv2j : l2.getD j 0 = l.getD j 0 := by
              rw [hl2, getD_set_ne _ _ _ _ (by omega), getD_set_ne _ _ _ _ (by omega)]
            have hv2p : l2.getD ((j - 1) / 2) 0 = item := by
              rw [hparpi, hl2, getD_set_ne _ _ _ _ (by omega), getD_set_self _ _ _ hpil]
            rw [hv2j, hv2p]
            have hold := hrest j hj hj0 hji
            rw [hparpi] at hold
            -- old: l[pi] ≤ l[j]; and item < l[pi]
            omega
          · -- edge untouched on both ends
            have hv2j : l2.getD j 0 = l.getD j 0 := by
              rw [hl2, getD_set_ne _ _ _ _ (by omega), getD_set_ne _ _ _ _ (by omega)]
            have hv2p : l2.getD ((j - 1) / 2) 0 = l.getD ((j - 1) / 2) 0 := by
              rw [hl2, getD_set_ne _ _ _ _ (by omega), getD_set_ne _ _ _ _ (by omega)]
            rw [hv2j, hv2p]
            exact hrest j hj hj0 hji
    · -- children of pi bounded by pi's parent
      intro c hc hcchild hpi0
      rw [hlen2] at hc
      have hgp : pi < l.length := hpil
      -- l2[(pi-1)/2] = l[(pi-1)/2] (grandparent untouched: (pi-1)/2 < pi < i)
      have hv2g : l2.getD ((pi - 1) / 2) 0 = l.getD ((pi - 1) / 2) 0 := by
        rw [hl2, getD_set_ne _ _ _ _ (by omega), getD_set_ne _ _ _ _ (by omega)]
      rw [hv2g]
      -- grandparent ≤ l[pi] by hrest (edge into pi, pi ≠ i)
      have hgple : l.getD ((pi - 1) / 2) 0 ≤ l.getD pi 0 := by
        have := hrest pi hpil hpi0 (by omega)
        exact this
      by_cases hci : c = i
      · subst hci
        rw [hl2, getD_set_self _ _ _ (by simpa using hi)]
        exact hgple
      · -- c is the sibling: old edge pi -> c holds
        have hv2c : l2.getD c 0 = l.getD c 0 := by
          rw [hl2, getD_set_ne _ _ _ _ (by omega), getD_set_ne _ _ _ _ (by omega)]
        rw [hv2c]
        have : l.getD pi 0 ≤ l.getD c 0 := by
          have := hrest c hc (by omega) hci
          have harg : (c - 1) / 2 = pi := by omega
          rwa [harg] at this
        omega

theorem siftDown_length : ∀ (l : List Nat) (i max : Nat),
    (siftDown l i max).length = l.length := by
  intro l i max
  induction l, i, max using siftDown.induct with
  | case1 l i max h1 hA ih =>
    have hA' : 2 * i + 2 < max ∧
        l.getD (2 * i + 2) 0 <
          l.getD (if l.getD (2 * i + 1) 0 < l.getD i 0 then 2 * i + 1 else i) 0 := hA
    rw [siftDown]
    rw [dif_pos h1, if_pos hA', ih]
    simp
  | case2 l i max h1 hA hB ih =>
    have hA' : ¬(2 * i + 2 < max ∧
        l.getD (2 * i + 2) 0 <
          l.getD (if l.getD (2 * i + 1) 0 < l.getD i 0 then 2 * i + 1 else i) 0) := hA
    rw [siftDown]
    rw [dif_pos h1, if_neg hA', if_pos hB, ih]
    simp
  | case3 l i max h1 hA hB =>
    have hA' : ¬(2 * i + 2 < max ∧
        l.getD (2 * i + 2) 0 <
          l.getD (if l.getD (2 * i + 1) 0 < l.getD i 0 then 2 * i + 1 else i) 0) := hA
    rw [siftDown]
    rw [dif_pos h1, if_neg hA', if_neg hB]
  | case4 l i max h1 =>
    rw [siftDown]
    rw [dif_neg h1]

theorem siftDown_perm : ∀ (l : List Nat) (i max : Nat), max = l.length →
    (siftDown l i max).Perm l := by
  intro l i max
  induction l, i, max using siftDown.induct with
  | case1 l i max h1 hA ih =>
    have hA' : 2 * i + 2 < max ∧
        l.getD (2 * i + 2) 0 <
          l.getD (if l.getD (2 * i + 1) 0 < l.getD i 0 then 2 * i + 1 else i) 0 := hA
    intro hm
    rw [siftDown]
    rw [dif_pos h1, if_pos hA']
    refine (ih (by simpa using hm)).trans ?_
    exact swap_perm l i (2 * i + 2) (by omega) (by omega) (by omega)
  | case2 l i max h1 hA hB ih =>
    have hA' : ¬(2 * i + 2 < max ∧
        l.getD (2 * i + 2) 0 <
          l.getD (if l.getD (2 * i + 1) 0 < l.getD i 0 then 2 * i + 1 else i) 0) := hA
    intro hm
    rw [siftDown]
    rw [dif_pos h1, if_neg hA', if_pos hB]
    refine (ih (by simpa using hm)).trans ?_
    exact swap_perm l i (2 * i + 1) (by omega) (by omega) (by omega)
  | case3 l i max h1 hA hB =>
    have hA' : ¬(2 * i + 2 < max ∧
        l.getD (2 * i + 2) 0 <
          l.getD (if l.getD (2 * i + 1) 0 < l.getD i 0 then 2 * i + 1 else i) 0) := hA
    intro _
    rw [siftDown]
    rw [dif_pos h1, if_neg hA', if_neg hB]
  | case4 l i max h1 =>
    intro _
    rw [siftDown]
    rw [dif_neg h1]

/-- The sift-down loop invariant at node `i`: every parent-child edge
whose parent is not `i` satisfies the heap order, and the children of
`i` are bounded below by the value at `i`'s parent. -/
def siftDownInv (l : List Nat) (i max : Nat) : Prop :=
  (∀ j < max, 0 < j → (j - 1) / 2 ≠ i → l.getD ((j - 1) / 2) 0 ≤ l.getD j 0) ∧
  (∀ c < max, (c = 2 * i + 1 ∨ c = 2 * i + 2) → 0 < i →
    l.getD ((i - 1) / 2) 0 ≤ l.getD c 0)

theorem siftDown_swap_inv (l : List Nat) (i s2 max : Nat)
    (hs2 : s2 = 2 * i + 1 ∨ s2 = 2 * i + 2) (hs2m : s2 < max) (hmax : max ≤ l.length)
    (hF1 : l.getD s2 0 < l.getD i 0)
    (hF2 : ∀ o < max, (o = 2 * i + 1 ∨ o = 2 * i + 2) → l.getD s2 0 ≤ l.getD o 0)
    (hinv : siftDownInv l i max) :
    siftDownInv ((l.set i (l.getD s2 0)).set s2 (l.getD i 0)) s2 max := by
  rcases hinv with ⟨ha, hb⟩
  set w := l.getD s2 0 with hw
  set v := l.getD i 0 with hv
  set l2 := (l.set i w).set s2 v with hl2
  have hgis : i ≠ s2 := by omega
  have hvi : l2.getD i 0 = w := by
    rw [hl2, getD_set_ne _ _ _ _ (by omega), getD_set_self _ _ _ (by omega)]
  have hvs : l2.getD s2 0 = v := by
    rw [hl2, getD_set_self _ _ _ (by simp; omega)]
  have hother : ∀ j, j ≠ i → j ≠ s2 → l2.getD j 0 = l.getD j 0 := by
    intro j hji hjs
    rw [hl2, getD_set_ne _ _ _ _ (by omega), getD_set_ne _ _ _ _ (by omega)]
  constructor
  · intro j hj hj0 hpj
    by_cases hji : j = i
    · -- edge into i: parent(i) ≤ w, from the old bound on i's children
      subst hji
      have hi0 : 0 < j := hj0
      have hpar : (j - 1) / 2 ≠ s2 := by omega
      rw [hvi, hother _ (by omega) hpar]
      have := hb s2 hs2m hs2 hj0
      omega
    · by_cases hjs : j = s2
      · -- edge i -> s2 : w ≤ v
        subst hjs
        have hpi : (j - 1) / 2 = i := by omega
        rw [hpi, hvi, hvs]
        omega
      · by_cases hpi : (j - 1) / 2 = i
        · -- j is the other child of i : w ≤ l[j]
          rw [hother _ hji hjs, hpi, hvi]
          exact hF2 j hj (by omega) 
        · -- edge untouched (parent is neither i nor s2 by hypothesis)
          rw [hother _ hji hjs, hother _ hpi hpj]
          exact ha j hj hj0 hpi
  · intro c hc hcs hs0
    -- children of s2: parent(s2) = i holds w; old edge s2 -> c gives w ≤ l[c]
    have hpi : (s2 - 1) / 2 = i := by omega
    rw [hpi, hvi, hother _ (by omega) (by omega)]
    have hedge := ha c hc (by omega) (by omega)
    rw [(by omega : (c - 1) / 2 = s2)] at hedge
    rw [hw]
    exact hedge

theorem siftDown_heapInv : ∀ (l : List Nat) (i max : Nat), max = l.length →
    siftDownInv l i max → heapInv (siftDown l i max) := by
  intro l i max
  induction l, i, max using siftDown.induct with
  | case1 l i max h1 hA ih =>
    have hA' : 2 * i + 2 < max ∧
        l.getD (2 * i + 2) 0 <
          l.getD (if l.getD (2 * i + 1) 0 < l.getD i 0 then 2 * i + 1 else i) 0 := hA
    intro hm hinv
    rw [siftDown]
    rw [dif_pos h1, if_pos hA']
    apply ih (by simpa using hm)
    apply siftDown_swap_inv l i (2 * i + 2) max (by omega) (by omega) (by omega) _ _ hinv
    · rcases hA' with ⟨hA1, hA2⟩
      by_cases hB : l.getD (2 * i + 1) 0 < l.getD i 0
      · rw [if_pos hB] at hA2; omega
      · rw [if_neg hB] at hA2; omega
    · intro o ho hoc
      rcases hA' with ⟨hA1, hA2⟩
      by_cases hB : l.getD (2 * i + 1) 0 < l.getD i 0
      · rw [if_pos hB] at hA2
        rcases hoc with h | h <;> subst h <;> omega
      · rw [if_neg hB] at hA2
        rcases hoc with h | h <;> subst h <;> omega
  | case2 l i max h1 hA hB ih =>
    have hA' : ¬(2 * i + 2 < max ∧
        l.getD (2 * i + 2) 0 <
          l.getD (if l.getD (2 * i + 1) 0 < l.getD i 0 then 2 * i + 1 else i) 0) := hA
    intro hm hinv
    rw [siftDown]
    rw [dif_pos h1, if_neg hA', if_pos hB]
    apply ih (by simpa using hm)
    apply siftDown_swap_inv l i (2 * i + 1) max (by omega) (by omega) (by omega) hB _ hinv
    intro o ho hoc
    rcases hoc with h | h
    · subst h; omega
    · subst h
      rw [if_pos hB] at hA'
      have : ¬ l.getD (2 * i + 2) 0 < l.getD (2 * i + 1) 0 := fun hlt => hA' ⟨ho, hlt⟩
      omega
  | case3 l i max h1 hA hB =>
    have hA' : ¬(2 * i + 2 < max ∧
        l.getD (2 * i + 2) 0 <
          l.getD (if l.getD (2 * i + 1) 0 < l.getD i 0 then 2 * i + 1 else i) 0) := hA
    intro hm hinv
    rw [siftDown]
    rw [dif_pos h1, if_neg hA', if_neg hB]
    rcases hinv with ⟨ha, _⟩
    intro j hj hj0
    by_cases hpi : (j - 1) / 2 = i
    · -- j is a child of i and neither child wins the comparison
      have hj12 : j = 2 * i + 1 ∨ j = 2 * i + 2 := by omega
      rw [hpi]
      rcases hj12 with h | h
      · subst h; omega
      · subst h
        rw [if_neg hB] at hA'
        have : ¬ l.getD (2 * i + 2) 0 < l.getD i 0 := fun hlt => hA' ⟨by omega, hlt⟩
        omega
    · exact ha j (by omega) hj0 hpi
  | case4 l i max h1 =>
    intro hm hinv
    rw [siftDown]
    rw [dif_neg h1]
    rcases hinv with ⟨ha, _⟩
    intro j hj hj0
    by_cases hpi : (j - 1) / 2 = i
    · -- i has no children below max = length, so j cannot be a child of i
      exfalso
      omega
    · exact ha j (by omega) hj0 hpi

theorem heapInv_root_le (l : List Nat) (hinv : heapInv l) :
    ∀ j < l.length, l.getD 0 0 ≤ l.getD j 0 := by
  intro j
  induction j using Nat.strong_induction_on with
  | _ j ih =>
    intro hj
    match j, hj with
    | 0, _ => exact le_refl _
    | j + 1, hj =>
      have hpar := hinv (j + 1) hj (by omega)
      have := ih ((j + 1 - 1) / 2) (by omega) (by omega)
      omega

theorem heapInv_root_min (l : List Nat) (hinv : heapInv l) :
    ∀ x ∈ l, l.getD 0 0 ≤ x := by
  intro x hx
  obtain ⟨j, hj, hget⟩ := List.mem_iff_getElem.1 hx
  have := heapInv_root_le l hinv j hj
  rwa [List.getD_eq_getElem _ _ hj, hget] at this

theorem getD_take (l : List Nat) (n j : Nat) (hj : j < n) (hn : n ≤ l.length) :
    (l.take n).getD j 0 = l.getD j 0 := by
  rw [List.getD_eq_getElem _ _ (by simp; omega), List.getD_eq_getElem _ _ (by omega),
    List.getElem_take]

theorem heapRemoveMin_spec (l : List Nat) (hne : l ≠ []) (hinv : heapInv l) :
    ∃ m l', heapRemoveMin l = (some m, l') ∧ m = l.getD 0 0 ∧ heapInv l' ∧
      l'.length = l.length - 1 ∧ (m :: l').Perm l ∧ ∀ x ∈ l, m ≤ x := by
  match l, hne with
  | x :: rest, _ =>
    by_cases h0 : rest.length = 0
    · refine ⟨x, [], ?_, rfl, ?_, ?_, ?_, ?_⟩
      · simp [heapRemoveMin, h0]
      · intro j hj; simp at hj
      · simp [List.length_eq_zero.1 h0]
      · rw [List.length_eq_zero.1 h0]
      · intro y hy
        rw [List.length_eq_zero.1 h0] at hy
        simp at hy
        omega
    · set max := rest.length with hmax
      set lastv := (x :: rest).getD max 0 with hlast
      set lst := ((x :: rest).set 0 lastv).take max with hlst
      have hlstlen : lst.length = max := by
        simp [hlst]
      have hset0 : (x :: rest).set 0 lastv = lastv :: rest := rfl
      have hres : heapRemoveMin (x :: rest) = (some x, siftDown lst 0 max) := by
        rw [heapRemoveMin]
        simp only [if_neg h0]
      have hbound : max ≤ ((x :: rest).set 0 lastv).length := by
        rw [List.length_set]; simp [hmax]
      have hvals : ∀ j, 0 < j → j < max → lst.getD j 0 = (x :: rest).getD j 0 := by
        intro j h1 h2
        rw [hlst, getD_take _ _ _ h2 hbound, hset0]
        match j, h1 with
        | j + 1, _ => rfl
      have hinvst : siftDownInv lst 0 max := by
        constructor
        · intro j hj hj0 hpj
          have hp0 : 0 < (j - 1) / 2 := by omega
          rw [hvals j hj0 hj, hvals _ hp0 (by omega)]
          exact hinv j (by simp [hmax]; omega) hj0
        · intro c _ _ h
          omega
      refine ⟨x, siftDown lst 0 max, hres, rfl, ?_, ?_, ?_, ?_⟩
      · apply siftDown_heapInv lst 0 max (by omega) hinvst
      · rw [siftDown_length, hlstlen]
        simp [hmax]
      · -- x :: siftDown lst ~ x :: rest
        refine List.Perm.cons x ?_
        refine (siftDown_perm lst 0 max (by omega)).trans ?_
        -- lst = lastv :: rest.take (max - 1), and lastv is the last element of rest
        have hdrop : rest.drop (max - 1) = [rest.getD (max - 1) 0] := by
          have hm1 : max - 1 < rest.length := by omega
          rw [List.drop_eq_getElem_cons hm1, List.getD_eq_getElem _ _ hm1]
          rw [List.drop_eq_nil_of_le (by omega)]
        have hlast2 : lastv = rest.getD (max - 1) 0 := by
          rw [hlast, hmax]
          match rest, h0 with
          | r :: rs, _ => rfl
        have hlst2 : lst = lastv :: rest.take (max - 1) := by
          obtain ⟨k, hk⟩ : ∃ k, max = k + 1 := ⟨max - 1, by omega⟩
          rw [hlst, hset0, hk]
          simp [List.take_succ_cons]
        rw [hlst2, hlast2]
        refine ((List.perm_append_singleton _ _).symm.trans ?_)
        rw [(by rw [← hdrop, List.take_append_drop] :
          rest.take (max - 1) ++ [rest.getD (max - 1) 0] = rest)]
      · intro y hy
        have := heapInv_root_min (x :: rest) hinv y hy
        simpa using this

theorem getD_concat_self (l : List Nat) (x : Nat) : (l ++ [x]).getD l.length 0 = x := by
  rw [List.getD_eq_getElem _ _ (by simp), List.getElem_concat_length]
  rfl

theorem siftUpInv_append (l : List Nat) (x : Nat) (hinv : heapInv l) :
    siftUpInv (l ++ [x]) l.length x := by
  refine ⟨getD_concat_self l x, ?_, ?_⟩
  · intro j hj hj0 hji
    have hjl : j < l.length := by
      simp at hj
      omega
    have hpj : (j - 1) / 2 < l.length := by omega
    rw [List.getD_append _ _ _ _ hjl, List.getD_append _ _ _ _ hpj]
    exact hinv j hjl hj0
  · intro c hc hcc _
    simp at hc
    omega

theorem heapAdd_notFull (cap : Nat) (l : List Nat) (x : Nat)
    (hinv : heapInv l) (hne : l.length ≠ cap) :
    (heapAdd cap l x).1 = true ∧ heapInv (heapAdd cap l x).2 ∧
    (heapAdd cap l x).2.Perm (x :: l) ∧ (heapAdd cap l x).2.length = l.length + 1 := by
  have heq : heapAdd cap l x = (true, siftUp x (l ++ [x]) l.length) := by
    unfold heapAdd
    rw [if_neg hne]
  rw [heq]
  refine ⟨rfl, ?_, ?_, ?_⟩
  · exact siftUp_heapInv x (l ++ [x]) l.length (by simp) (siftUpInv_append l x hinv)
  · refine (siftUp_perm x (l ++ [x]) l.length (by simp) (getD_concat_self l x)).trans ?_
    exact List.perm_append_singleton x l
  · rw [siftUp_length]
    simp

theorem heapAdd_reject (cap : Nat) (l : List Nat) (x : Nat)
    (hfull : l.length = cap) (hcap : 0 < cap) (hle : x ≤ l.getD 0 0) :
    heapAdd cap l x = (false, l) := by
  obtain ⟨root, rest, rfl⟩ : ∃ a t, l = a :: t := by
    cases l with
    | nil => simp at hfull; omega
    | cons a t => exact ⟨a, t, rfl⟩
  unfold heapAdd
  rw [if_pos hfull]
  have : x ≤ root := hle
  simp [this]

theorem heapAdd_accept (cap : Nat) (l : List Nat) (x : Nat)
    (hinv : heapInv l) (hfull : l.length = cap) (hcap : 0 < cap)
    (hgt : l.getD 0 0 < x) :
    ∃ t, (l.getD 0 0 :: t).Perm l ∧ (heapAdd cap l x).1 = true ∧
      heapInv (heapAdd cap l x).2 ∧ (heapAdd cap l x).2.Perm (x :: t) ∧
      (heapAdd cap l x).2.length = cap := by
  obtain ⟨root, rest, rfl⟩ : ∃ a t, l = a :: t := by
    cases l with
    | nil => simp at hfull; omega
    | cons a t => exact ⟨a, t, rfl⟩
  obtain ⟨m, l', heq, hm, hinv', hlen', hperm, hmin⟩ :=
    heapRemoveMin_spec (root :: rest) (by simp) hinv
  have hroot : (root :: rest).getD 0 0 = root := rfl
  rw [hroot] at hm
  have heq2 : heapAdd cap (root :: rest) x =
      (true, siftUp x (l' ++ [x]) l'.length) := by
    unfold heapAdd
    rw [if_pos hfull]
    have hx : ¬ x ≤ root := by rw [hroot] at hgt; omega
    simp only [if_neg hx, heq]
  rw [heq2, hroot]
  subst hm
  refine ⟨l', hperm, rfl, ?_, ?_, ?_⟩
  · exact siftUp_heapInv x (l' ++ [x]) l'.length (by simp) (siftUpInv_append l' x hinv')
  · refine (siftUp_perm x (l' ++ [x]) l'.length (by simp) (getD_concat_self l' x)).trans ?_
    exact List.perm_append_singleton x l'
  · rw [siftUp_length]
    simp at hlen' hfull ⊢
    omega

theorem sortDesc_perm (l : List Nat) : (sortDesc l).Perm l := List.perm_insertionSort _ l

theorem sortDesc_sorted (l : List Nat) : (sortDesc l).Sorted (fun a b => a ≥ b) :=
  List.sorted_insertionSort _ l

theorem sorted_eq_sortDesc (l m : List Nat) (hp : l.Perm m)
    (hs : l.Sorted (fun a b => a ≥ b)) : l = sortDesc m :=
  List.eq_of_perm_of_sorted (hp.trans (sortDesc_perm m).symm) hs (sortDesc_sorted m)

theorem sortDesc_congr (l m : List Nat) (hp : l.Perm m) : sortDesc l = sortDesc m :=
  sorted_eq_sortDesc _ _ ((sortDesc_perm l).trans hp) (sortDesc_sorted l)

theorem sorted_take_replicate (b : Nat) :
    ∀ (L : List Nat) (c : Nat), L.Sorted (fun a b => a ≥ b) → (∀ y ∈ L, y ≤ b) →
    c ≤ L.countP (fun y => decide (b ≤ y)) → L.take c = List.replicate c b
  | _, 0, _, _, _ => by simp
  | [], c + 1, _, _, hc => by simp at hc
  | y :: ys, c + 1, hs, hb, hc => by
    have hsc := List.sorted_cons.1 hs
    have hylb : b ≤ y := by
      by_contra hby
      have hcy : List.countP (fun w => decide (b ≤ w)) (y :: ys) =
          List.countP (fun w => decide (b ≤ w)) ys :=
        List.countP_cons_of_neg _ _ (by simpa using hby)
      rw [hcy] at hc
      have hpos : 0 < List.countP (fun w => decide (b ≤ w)) ys := by omega
      obtain ⟨z, hz, hbz⟩ := List.countP_pos_iff.1 hpos
      have hbz' : b ≤ z := by simpa using hbz
      have := hsc.1 z hz
      omega
    have hyeqb : y = b := le_antisymm (hb y (by simp)) hylb
    rw [List.take_succ_cons, List.replicate_succ, hyeqb]
    have hc' : c ≤ List.countP (fun y => decide (b ≤ y)) ys := by
      have : List.countP (fun y => decide (b ≤ y)) (y :: ys) =
          List.countP (fun y => decide (b ≤ y)) ys + 1 :=
        List.countP_cons_of_pos _ _ (by simpa using hylb)
      omega
    rw [sorted_take_replicate b ys c hsc.2 (fun z hz => by
      have := hsc.1 z hz
      omega) hc']

theorem orderedInsert_take (x : Nat) :
    ∀ (L : List Nat) (c : Nat), L.Sorted (fun a b => a ≥ b) →
    c ≤ L.countP (fun y => decide (x ≤ y)) →
    (List.orderedInsert (fun a b => a ≥ b) x L).take c = L.take c
  | _, 0, _, _ => by simp
  | [], c + 1, _, hc => by simp at hc
  | b :: L, c + 1, hs, hc => by
    have hsc := List.sorted_cons.1 hs
    rw [List.orderedInsert]
    by_cases hr : x ≥ b
    · rw [if_pos hr]
      have hxb : x = b := by
        have hpos : 0 < List.countP (fun y => decide (x ≤ y)) (b :: L) := by omega
        obtain ⟨z, hz, hxz⟩ := List.countP_pos_iff.1 hpos
        have hxz' : x ≤ z := by simpa using hxz
        rcases List.mem_cons.1 hz with h | h
        · omega
        · have := hsc.1 z h
          omega
      subst hxb
      have hbound : ∀ y ∈ x :: L, y ≤ x := by
        intro y hy
        rcases List.mem_cons.1 hy with h | h
        · omega
        · exact hsc.1 y h
      have hcnt1 : c ≤ List.countP (fun y => decide (x ≤ y)) (x :: L) := by omega
      have hcnt2 : c ≤ List.countP (fun y => decide (x ≤ y)) L := by
        have hstep : List.countP (fun y => decide (x ≤ y)) (x :: L) =
            List.countP (fun y => decide (x ≤ y)) L + 1 :=
          List.countP_cons_of_pos _ _ (by simp)
        omega
      rw [List.take_succ_cons, List.take_succ_cons,
        sorted_take_replicate x (x :: L) c hs hbound hcnt1,
        sorted_take_replicate x L c hsc.2 (fun z hz => hsc.1 z hz) hcnt2]
    · rw [if_neg hr]
      rw [List.take_succ_cons, List.take_succ_cons]
      have hxble : x ≤ b := by omega
      have hc' : c ≤ List.countP (fun y => decide (x ≤ y)) L := by
        have : List.countP (fun y => decide (x ≤ y)) (b :: L) =
            List.countP (fun y => decide (x ≤ y)) L + 1 :=
          List.countP_cons_of_pos _ _ (by simpa using hxble)
        omega
      rw [orderedInsert_take x L c hsc.2 hc']

theorem take_sortDesc_cons (x : Nat) (S : List Nat) (cap : Nat)
    (hcnt : cap ≤ S.countP (fun y => decide (x ≤ y))) :
    (sortDesc (x :: S)).take cap = (sortDesc S).take cap := by
  have h1 : sortDesc (x :: S) = List.orderedInsert (fun a b => a ≥ b) x (sortDesc S) := rfl
  rw [h1]
  apply orderedInsert_take x (sortDesc S) cap (sortDesc_sorted S)
  rw [(sortDesc_perm S).countP_eq]
  exact hcnt

theorem heapSortGo_spec : ∀ (fuel : Nat) (l acc : List Nat), l.length ≤ fuel →
    heapInv l → (∀ a ∈ acc, ∀ y ∈ l, a ≤ y) → acc.Sorted (fun a b => a ≥ b) →
    (heapSortGo fuel l acc).Sorted (fun a b => a ≥ b) ∧
    (heapSortGo fuel l acc).Perm (acc ++ l)
  | 0, l, acc, hf, _, _, hacc => by
    have hnil : l = [] := List.length_eq_zero.1 (by omega)
    subst hnil
    rw [heapSortGo]
    exact ⟨hacc, by simp⟩
  | fuel + 1, l, acc, hf, hinv, hbound, hacc => by
    by_cases hnil : l = []
    · subst hnil
      refine ⟨hacc, ?_⟩
      rw [List.append_nil]
      exact List.Perm.refl acc
    · obtain ⟨m, l', heq, hm0, hinv', hlen', hperm, hmin⟩ :=
        heapRemoveMin_spec l hnil hinv
      rw [heapSortGo]
      rw [heq]
      have hlfuel : l'.length ≤ fuel := by
        have : l.length ≠ 0 := fun h => hnil (List.length_eq_zero.1 h)
        omega
      have hbound' : ∀ a ∈ m :: acc, ∀ y ∈ l', a ≤ y := by
        intro a ha y hy
        have hyl : y ∈ l := hperm.subset (List.mem_cons_of_mem m hy)
        rcases List.mem_cons.1 ha with h | h
        · subst h
          exact hmin y hyl
        · exact hbound a h y hyl
      have hacc' : (m :: acc).Sorted (fun a b => a ≥ b) := by
        rw [List.sorted_cons]
        refine ⟨?_, hacc⟩
        intro b hb
        exact hbound b hb m (hperm.subset (List.mem_cons_self m l'))
      obtain ⟨hs, hp⟩ := heapSortGo_spec fuel l' (m :: acc) hlfuel hinv' hbound' hacc'
      refine ⟨hs, hp.trans ?_⟩
      -- (m :: acc) ++ l' ~ acc ++ l
      show (m :: (acc ++ l')).Perm (acc ++ l)
      refine List.Perm.trans ?_ ((hperm.append_left acc).symm).symm
      exact List.perm_middle.symm

theorem heapSort_eq_sortDesc (l : List Nat) (hinv : heapInv l) :
    heapSort l = sortDesc l := by
  obtain ⟨hs, hp⟩ := heapSortGo_spec l.length l [] (le_refl _) hinv
    (by intro a ha; simp at ha) (by simp)
  exact sorted_eq_sortDesc _ _ (by simpa using hp) hs

theorem heapAddAll_topK (cap : Nat) (hcap : 0 < cap) :
    ∀ (xs l : List Nat), heapInv l → l.length ≤ cap →
    heapInv (heapAddAll cap l xs) ∧ (heapAddAll cap l xs).length ≤ cap ∧
    sortDesc (heapAddAll cap l xs) = (sortDesc (l ++ xs)).take cap
  | [], l, hinv, hlen => by
    rw [heapAddAll]
    refine ⟨hinv, hlen, ?_⟩
    rw [List.append_nil, List.take_of_length_le (by rw [(sortDesc_perm l).length_eq]; omega)]
  | x :: xs, l, hinv, hlen => by
    rw [heapAddAll]
    by_cases hfull : l.length = cap
    · by_cases hle : x ≤ l.getD 0 0
      · -- reject: the heap is unchanged and the dropped item is below all cap members
        have heq := heapAdd_reject cap l x hfull hcap hle
        rw [heq]
        obtain ⟨h1, h2, h3⟩ := heapAddAll_topK cap hcap xs l hinv hlen
        refine ⟨h1, h2, ?_⟩
        rw [h3, sortDesc_congr (l ++ x :: xs) (x :: (l ++ xs)) List.perm_middle]
        rw [take_sortDesc_cons x (l ++ xs) cap ?_]
        rw [List.countP_append]
        have hall : List.countP (fun y => decide (x ≤ y)) l = l.length :=
          List.countP_eq_length.2 (fun a ha => by
            have := heapInv_root_min l hinv a ha
            rw [decide_eq_true_eq]
            omega)
        omega
      · -- accept: the root (the heap minimum) is evicted
        obtain ⟨t, hperm_t, hok, hinv2, hperm2, hlen2⟩ :=
          heapAdd_accept cap l x hinv hfull hcap (by omega)
        obtain ⟨h1, h2, h3⟩ := heapAddAll_topK cap hcap xs (heapAdd cap l x).2 hinv2 (by omega)
        refine ⟨h1, h2, ?_⟩
        rw [h3]
        have e1 : sortDesc ((heapAdd cap l x).2 ++ xs) = sortDesc (x :: (t ++ xs)) :=
          sortDesc_congr _ _ (by
            have h := hperm2.append_right xs
            simpa using h)
        have e2 : sortDesc (l ++ x :: xs) =
            sortDesc (l.getD 0 0 :: (x :: (t ++ xs))) := by
          apply sortDesc_congr
          refine List.Perm.trans ((hperm_t.symm).append_right (x :: xs)) ?_
          show ((l.getD 0 0 :: t) ++ x :: xs).Perm _
          exact List.Perm.cons _ List.perm_middle
        rw [e1, e2]
        rw [take_sortDesc_cons (l.getD 0 0) (x :: (t ++ xs)) cap ?_]
        have htlen : t.length = cap - 1 := by
          have := hperm_t.length_eq
          simp at this
          omega
        have hallt : List.countP (fun y => decide (l.getD 0 0 ≤ y)) t = t.length :=
          List.countP_eq_length.2 (fun a ha => by
            have hal : a ∈ l := hperm_t.subset (List.mem_cons_of_mem _ ha)
            have := heapInv_root_min l hinv a hal
            rw [decide_eq_true_eq]
            omega)
        have hx : List.countP (fun y => decide (l.getD 0 0 ≤ y)) (x :: (t ++ xs)) =
            List.countP (fun y => decide (l.getD 0 0 ≤ y)) (t ++ xs) + 1 :=
          List.countP_cons_of_pos _ _ (by rw [decide_eq_true_eq]; omega)
        rw [hx, List.countP_append]
        omega
    · -- not at capacity: the item is always inserted
      obtain ⟨hok, hinv2, hperm2, hlen2⟩ := heapAdd_notFull cap l x hinv hfull
      obtain ⟨h1, h2, h3⟩ := heapAddAll_topK cap hcap xs (heapAdd cap l x).2 hinv2 (by omega)
      refine ⟨h1, h2, ?_⟩
      rw [h3]
      have e1 : sortDesc ((heapAdd cap l x).2 ++ xs) = sortDesc (l ++ x :: xs) :=
        sortDesc_congr _ _ (by
          refine List.Perm.trans (hperm2.append_right xs) ?_
          show (x :: (l ++ xs)).Perm _
          exact List.perm_middle.symm)
      rw [e1]

/-- C5: for a heap of capacity `cap > 0` holding the well-formed item
array `l` (`|l| ≤ cap`): an add never grows the array beyond `cap`; an
item is rejected exactly when the array is full and the item is less
than or equal to the root, and the root is the minimum of the array;
and feeding any item list `xs` through `heap_add` followed by
`heap_sort` yields exactly the `min (cap, |xs|)` largest items of `xs`
in descending order. -/
theorem heap_topK (cap : Nat) (l : List Nat) (x : Nat) (xs : List Nat)
    (hcap : 0 < cap) (hinv : heapInv l) (hlen : l.length ≤ cap) :
    (heapAdd cap l x).2.length ≤ cap ∧
    ((heapAdd cap l x).1 = false ↔ l.length = cap ∧ x ≤ l.getD 0 0) ∧
    (∀ y ∈ l, l.getD 0 0 ≤ y) ∧
    heapSort (heapAddAll cap [] xs) = (sortDesc xs).take cap ∧
    (heapSort (heapAddAll cap [] xs)).length = Nat.min cap xs.length ∧
    (heapSort (heapAddAll cap [] xs)).Sorted (fun a b => a ≥ b) := by
  obtain ⟨hA1, hA2, hA3⟩ := heapAddAll_topK cap hcap xs []
    (by intro j hj _; simp at hj) (by simp)
  have hmain : heapSort (heapAddAll cap [] xs) = (sortDesc xs).take cap := by
    rw [heapSort_eq_sortDesc _ hA1, hA3, List.nil_append]
  refine ⟨?_, ?_, heapInv_root_min l hinv, hmain, ?_, ?_⟩
  · by_cases hfull : l.length = cap
    · by_cases hle : x ≤ l.getD 0 0
      · rw [heapAdd_reject cap l x hfull hcap hle]
        dsimp only
        omega
      · obtain ⟨t, _, _, _, _, hlen2⟩ := heapAdd_accept cap l x hinv hfull hcap (by omega)
        omega
    · obtain ⟨_, _, _, hlen2⟩ := heapAdd_notFull cap l x hinv hfull
      omega
  · constructor
    · intro hfalse
      by_cases hfull : l.length = cap
      · by_cases hle : x ≤ l.getD 0 0
        · exact ⟨hfull, hle⟩
        · obtain ⟨t, _, hok, _, _, _⟩ := heapAdd_accept cap l x hinv hfull hcap (by omega)
          rw [hok] at hfalse
          exact absurd hfalse (by simp)
      · obtain ⟨hok, _, _, _⟩ := heapAdd_notFull cap l x hinv hfull
        rw [hok] at hfalse
        exact absurd hfalse (by simp)
    · rintro ⟨hfull, hle⟩
      rw [heapAdd_reject cap l x hfull hcap hle]
  · rw [hmain, List.length_take, (sortDesc_perm xs).length_eq]
  · rw [hmain]
    exact (sortDesc_sorted xs).take

/-- Witness for C5 at capacity 2, a concrete two-item heap and a
five-item input list. -/
theorem heap_topK_witness :
    (heapAdd 2 [1, 2] 5).2.length ≤ 2 ∧
    heapSort (heapAddAll 2 [] [3, 1, 4, 1, 5]) = (sortDesc [3, 1, 4, 1, 5]).take 2 := by
  have h := heap_topK 2 [1, 2] 5 [3, 1, 4, 1, 5] (by decide)
    (by decide) (by decide)
  exact ⟨h.1, h.2.2.2.1⟩

end Nxs
